import Mathlib

set_option maxHeartbeats 1000000

/-!
Verification development for `scripts/save_summary_compact.py`.

The script digests a session transcript, sends it to a summarization engine,
parses the engine's reply into an index document plus newline-delimited
resolution records, allocates collision-free `res-NNN` ids, persists the
records and merges the index with the previously persisted one.

We shallowly embed the decoded JSON data model (`JVal`), the pure text
processing, the merge policies (`unique_list_merge`,
`merge_resolution_index_items`, `normalize_index`, the index merge), the id
allocator (`allocate_next_res_id`) and the per-run persistence loop of
`parse_model_output_to_context`, and prove the specified properties about
them.  File contents and the resolution directory are modelled as
association structures keyed by id; raw text is modelled as `List Char`
(Python strings index by code point, as Lean `Char` lists do).
-/

mutual
/-- A decoded Python/JSON value.  `jraw` stands for a Python object that is
not JSON serializable (`json.dumps` raises on it); its string form is
carried so that `str(item)` can be modelled.  Numbers are modelled as
integers (no claim depends on float values). -/
inductive JVal where
  | jnull : JVal
  | jbool : Bool → JVal
  | jnum : Int → JVal
  | jstr : String → JVal
  | jarr : JList → JVal
  | jobj : JObj → JVal
  | jraw : String → JVal
inductive JList where
  | lnil : JList
  | lcons : JVal → JList → JList
inductive JObj where
  | onil : JObj
  | ocons : String → JVal → JObj → JObj
end

/-- Convert an embedded JSON array to a Lean list of its elements. -/
def JList.toList : JList → List JVal
  | .lnil => []
  | .lcons x xs => x :: xs.toList

/-- Build an embedded JSON array from a Lean list. -/
def JList.ofList : List JVal → JList
  | [] => .lnil
  | x :: xs => .lcons x (JList.ofList xs)

/-- Convert an embedded JSON object to a Lean association list (Python
dicts preserve insertion order, which the list order models). -/
def JObj.toList : JObj → List (String × JVal)
  | .onil => []
  | .ocons k v fs => (k, v) :: fs.toList

/-- Build an embedded JSON object from a Lean association list. -/
def JObj.ofList : List (String × JVal) → JObj
  | [] => .onil
  | (k, v) :: fs => .ocons k v (JObj.ofList fs)

deriving instance DecidableEq for JVal

/-- Python `s.startswith(pre)` (code-point prefix test; `String.startsWith`
is byte-position based and is avoided so that terms evaluate by kernel
reduction). -/
def pyStartsWith (s : String) (pre : String) : Bool :=
  pre.data.isPrefixOf s.data

/-- `d.get(key)`: first binding of `key`, if any (dict keys are unique in
Python, so "first" is "the" binding). -/
def JObj.lookupKey : JObj → String → Option JVal
  | .onil, _ => none
  | .ocons k v fs, key => if k = key then some v else fs.lookupKey key

/-- `d[key] = v`: replace the binding in place, else append a new binding
at the end (Python dict assignment preserves insertion order). -/
def JObj.setKey : JObj → String → JVal → JObj
  | .onil, key, v => .ocons key v .onil
  | .ocons k w fs, key, v =>
    if k = key then .ocons k v fs else .ocons k w (fs.setKey key v)

/-- `d.setdefault(key, v)`: keep the existing binding, else append the
default at the end. -/
def JObj.setDefaultKey : JObj → String → JVal → JObj
  | .onil, key, v => .ocons key v .onil
  | .ocons k w fs, key, v =>
    if k = key then .ocons k w fs else .ocons k w (fs.setDefaultKey key v)

/-- `d.get(key, dflt)`. -/
def JObj.getD (fs : JObj) (key : String) (dflt : JVal) : JVal :=
  (fs.lookupKey key).getD dflt

/-- The keys of an object, in insertion order. -/
def JObj.keyList : JObj → List String
  | .onil => []
  | .ocons k _ fs => k :: fs.keyList

/-- Number of bindings. -/
def JObj.size : JObj → Nat
  | .onil => 0
  | .ocons _ _ fs => fs.size + 1

/-- `isinstance(v, dict)`. -/
def JVal.isObjB : JVal → Bool
  | .jobj _ => true
  | _ => false

/-- `isinstance(v, list)`. -/
def JVal.isArrB : JVal → Bool
  | .jarr _ => true
  | _ => false

/-- `isinstance(v, str)`. -/
def JVal.isStrB : JVal → Bool
  | .jstr _ => true
  | _ => false

/-- Fields of a value known to be an object (else the empty object). -/
def JVal.objFieldsD : JVal → JObj
  | .jobj fs => fs
  | _ => .onil

/-- Elements of a value known to be an array (else no elements). -/
def JVal.arrItemsD : JVal → List JVal
  | .jarr xs => xs.toList
  | _ => []

/-- Python truthiness of a decoded value (`bool(v)`). -/
def JVal.pyTruthy : JVal → Bool
  | .jnull => false
  | .jbool b => b
  | .jnum n => n ≠ 0
  | .jstr s => s ≠ ""
  | .jarr .lnil => false
  | .jarr _ => true
  | .jobj .onil => false
  | .jobj _ => true
  | .jraw _ => true

/-- Association lookup for string-to-string maps (the id remap dict). -/
def lookupStr : List (String × String) → String → Option String
  | [], _ => none
  | (k, v) :: ps, key => if k = key then some v else lookupStr ps key

/-- Dict assignment for string-to-string maps (the id remap dict). -/
def setStr : List (String × String) → String → String → List (String × String)
  | [], key, v => [(key, v)]
  | (k, w) :: ps, key, v =>
    if k = key then (k, v) :: ps else (k, w) :: setStr ps key v

/-! ### Canonical serialization (`json.dumps(item, ensure_ascii=False, sort_keys=True)`)

`unique_list_merge` deduplicates by this canonical string; when `json.dumps`
raises (a `jraw` value anywhere inside), Python falls back to `str(item)`. -/

/-- The `{` character, kept out of string literals. -/
def lbraceChar : Char := Char.ofNat 123

/-- The `}` character, kept out of string literals. -/
def rbraceChar : Char := Char.ofNat 125

/-- The `'` character, kept out of string literals. -/
def squoteChar : Char := Char.ofNat 39

/-- Hex digit for values below 16. -/
def hexDigit (n : Nat) : Char :=
  match n with
  | 0 => '0' | 1 => '1' | 2 => '2' | 3 => '3' | 4 => '4'
  | 5 => '5' | 6 => '6' | 7 => '7' | 8 => '8' | 9 => '9'
  | 10 => 'a' | 11 => 'b' | 12 => 'c' | 13 => 'd' | 14 => 'e'
  | _ => 'f'

/-- JSON escaping of one character, as `json.dumps` with
`ensure_ascii=False` performs it. -/
def jescapeChar (c : Char) : List Char :=
  if c = '"' then ['\\', '"']
  else if c = '\\' then ['\\', '\\']
  else if c = '\n' then ['\\', 'n']
  else if c = '\t' then ['\\', 't']
  else if c = '\r' then ['\\', 'r']
  else if c = Char.ofNat 8 then ['\\', 'b']
  else if c = Char.ofNat 12 then ['\\', 'f']
  else if c.toNat < 32 then
    ['\\', 'u', '0', '0', hexDigit (c.toNat / 16), hexDigit (c.toNat % 16)]
  else [c]

/-- A JSON string literal for `s`. -/
def jstrDump (s : List Char) : List Char :=
  '"' :: (s.flatMap jescapeChar) ++ ['"']

/-- Lexicographic comparison of code-point sequences, as Python compares
`str` values when `sort_keys=True` sorts object keys. -/
def strLeL : List Char → List Char → Bool
  | [], _ => true
  | _ :: _, [] => false
  | a :: as, b :: bs => if a = b then strLeL as bs else decide (a < b)

/-- Insert one key/value pair into a key-sorted list of pairs. -/
def insertByKey (p : List Char × List Char) :
    List (List Char × List Char) → List (List Char × List Char)
  | [] => [p]
  | q :: qs => if strLeL p.1 q.1 then p :: q :: qs else q :: insertByKey p qs

/-- Sort serialized object entries by key (`sort_keys=True`). -/
def sortPairs (ps : List (List Char × List Char)) :
    List (List Char × List Char) :=
  ps.foldr insertByKey []

/-- Assemble a serialized JSON object from its key-sorted entries. -/
def assembleObj (ps : List (List Char × List Char)) : List Char :=
  lbraceChar ::
    (List.intercalate (", ".data)
      (ps.map fun p => jstrDump p.1 ++ (": ".data) ++ p.2)) ++ [rbraceChar]

mutual
/-- `json.dumps(v, ensure_ascii=False, sort_keys=True)`, or `none` when the
value is not JSON serializable. -/
def dumpsV : JVal → Option (List Char)
  | .jnull => some ("null".data)
  | .jbool true => some ("true".data)
  | .jbool false => some ("false".data)
  | .jnum n => some ((toString n).data)
  | .jstr s => some (jstrDump s.data)
  | .jarr xs =>
    match dumpsL xs with
    | some parts => some ('[' :: (List.intercalate (", ".data) parts) ++ [']'])
    | none => none
  | .jobj fs =>
    match dumpsO fs with
    | some kvs => some (assembleObj (sortPairs kvs))
    | none => none
  | .jraw _ => none
/-- Serialize each array element. -/
def dumpsL : JList → Option (List (List Char))
  | .lnil => some []
  | .lcons x xs =>
    match dumpsV x, dumpsL xs with
    | some c, some cs => some (c :: cs)
    | _, _ => none
/-- Serialize each object entry (keys left raw for sorting). -/
def dumpsO : JObj → Option (List (List Char × List Char))
  | .onil => some []
  | .ocons k v fs =>
    match dumpsV v, dumpsO fs with
    | some c, some cs => some ((k.data, c) :: cs)
    | _, _ => none
end

mutual
/-- Python `repr` of a decoded value (approximate: quote escaping inside
`repr` of strings is not reproduced; no claim depends on it). -/
def pyReprV : JVal → List Char
  | .jnull => "None".data
  | .jbool true => "True".data
  | .jbool false => "False".data
  | .jnum n => (toString n).data
  | .jstr s => squoteChar :: s.data ++ [squoteChar]
  | .jarr xs => '[' :: (List.intercalate (", ".data) (pyReprL xs)) ++ [']']
  | .jobj fs => lbraceChar :: (List.intercalate (", ".data) (pyReprO fs)) ++ [rbraceChar]
  | .jraw s => s.data
/-- `repr` of each array element. -/
def pyReprL : JList → List (List Char)
  | .lnil => []
  | .lcons x xs => pyReprV x :: pyReprL xs
/-- `repr` of each object entry. -/
def pyReprO : JObj → List (List Char)
  | .onil => []
  | .ocons k v fs =>
    (squoteChar :: k.data ++ [squoteChar] ++ (": ".data) ++ pyReprV v) :: pyReprO fs
end

/-- Python `str(v)`: the string itself for strings, else `repr`. -/
def pyStrTop : JVal → List Char
  | .jstr s => s.data
  | v => pyReprV v

/-- The deduplication key `unique_list_merge` computes for one item:
`json.dumps(item, ensure_ascii=False, sort_keys=True)`, falling back to
`str(item)` when serialization raises. -/
def mergeKey (v : JVal) : List Char :=
  match dumpsV v with
  | some k => k
  | none => pyStrTop v

/-! ### `unique_list_merge` and `merge_resolution_index_items` -/

/-- One iteration of the inner loop of `unique_list_merge`: skip the item
if its key was seen, else append it and record the key. -/
def ulmStep (acc : List JVal × List (List Char)) (item : JVal) :
    List JVal × List (List Char) :=
  let k := mergeKey item
  if k ∈ acc.2 then acc else (acc.1 ++ [item], k :: acc.2)

/-- One pass of `unique_list_merge` over one of the two arguments: a
non-list contributes nothing (`if not isinstance(arr, list): continue`). -/
def ulmPass (acc : List JVal × List (List Char)) (arr : JVal) :
    List JVal × List (List Char) :=
  match arr with
  | .jarr xs => xs.toList.foldl ulmStep acc
  | _ => acc

/-- `unique_list_merge(a, b)`: merge two lists, deduplicating by canonical
serialized form, keeping order (`a` first, then `b`). -/
def unique_list_merge (a b : JVal) : List JVal :=
  (ulmPass (ulmPass ([], []) a) b).1

/-- One iteration of `merge_resolution_index_items`'s loops: keep the item
only if it is a dict with a string `id` not seen before. -/
def mriStep (acc : List JVal × List String) (it : JVal) :
    List JVal × List String :=
  match it with
  | .jobj fs =>
    match fs.lookupKey "id" with
    | some (.jstr rid) =>
      if rid ∈ acc.2 then acc else (acc.1 ++ [it], rid :: acc.2)
    | _ => acc
  | _ => acc

/-- `merge_resolution_index_items(existing_items, incoming_items)`:
id-keyed union, existing entries first. -/
def merge_resolution_index_items (ex inc : List JVal) : List JVal :=
  (inc.foldl mriStep (ex.foldl mriStep ([], []))).1

/-! ### `normalize_index` -/

/-- The canonical empty `environment` shape. -/
def emptyEnv : JVal :=
  .jobj (.ocons "os" .jnull (.ocons "runtime" .jnull
    (.ocons "tools" (.jarr .lnil) (.ocons "paths" (.jarr .lnil) .onil))))

/-- The canonical empty `detail_index` shape. -/
def emptyDetail : JVal :=
  .jobj (.ocons "resolutions" (.jarr .lnil) .onil)

/-- The field updates of `normalize_index(obj)`: a non-dict argument is
replaced by `{}`, every schema field is `setdefault`-ed, and
`detail_index` (resp. `detail_index["resolutions"]`) is forced to be a
dict (resp. a list). -/
def normFields (v : JVal) : JObj :=
  let fs := v.objFieldsD
  let fs := fs.setDefaultKey "context_version" (.jstr "v2")
  let fs := fs.setDefaultKey "project" (.jstr "unknown")
  let fs := fs.setDefaultKey "current_state" (.jstr "")
  let fs := fs.setDefaultKey "goals" (.jarr .lnil)
  let fs := fs.setDefaultKey "constraints" (.jarr .lnil)
  let fs := fs.setDefaultKey "environment" emptyEnv
  let fs := fs.setDefaultKey "verified_facts" (.jarr .lnil)
  let fs := fs.setDefaultKey "next_actions" (.jarr .lnil)
  let fs := fs.setDefaultKey "detail_index" emptyDetail
  let fs :=
    if (fs.getD "detail_index" .jnull).isObjB then fs
    else fs.setKey "detail_index" emptyDetail
  let di := (fs.getD "detail_index" .jnull).objFieldsD
  let di := di.setDefaultKey "resolutions" (.jarr .lnil)
  let di :=
    if (di.getD "resolutions" .jnull).isArrB then di
    else di.setKey "resolutions" (.jarr .lnil)
  fs.setKey "detail_index" (.jobj di)

/-- `normalize_index(obj)` as a value. -/
def normalize_index (v : JVal) : JVal :=
  .jobj (normFields v)

/-! ### Index merge (step 4 of `parse_model_output_to_context`) -/

/-- The `environment` merge: `os`/`runtime` latest-win (incoming wins when
the key is present), `tools`/`paths` union-merge; non-dict environments are
treated as `{}`. -/
def envMerge (envOldV envNewV : JVal) : JVal :=
  let eo := if envOldV.isObjB then envOldV.objFieldsD else .onil
  let en := if envNewV.isObjB then envNewV.objFieldsD else .onil
  .jobj (.ocons "os" (en.getD "os" (eo.getD "os" .jnull))
    (.ocons "runtime" (en.getD "runtime" (eo.getD "runtime" .jnull))
      (.ocons "tools"
        (.jarr (JList.ofList (unique_list_merge
          (eo.getD "tools" (.jarr .lnil)) (en.getD "tools" (.jarr .lnil)))))
        (.ocons "paths"
          (.jarr (JList.ofList (unique_list_merge
            (eo.getD "paths" (.jarr .lnil)) (en.getD "paths" (.jarr .lnil)))))
          .onil))))

/-- The merge of the incoming index into the previously persisted one
(`merged = existing_index` followed by the field-policy assignments).
`project`, `current_state`, `next_actions` are overwritten with the
incoming value when the key is present (else retained); `goals`,
`constraints`, `verified_facts` are union-merged; `environment` is merged
by `envMerge`; `detail_index.resolutions` is id-keyed merged. -/
def mergeIndex (existingFs incomingFs : JObj) : JObj :=
  let m := existingFs
  let m := m.setKey "project" (incomingFs.getD "project" (m.getD "project" .jnull))
  let m := m.setKey "current_state"
    (incomingFs.getD "current_state" (m.getD "current_state" .jnull))
  let m := m.setKey "next_actions"
    (incomingFs.getD "next_actions" (m.getD "next_actions" .jnull))
  let m := m.setKey "goals"
    (.jarr (JList.ofList (unique_list_merge
      (m.getD "goals" (.jarr .lnil)) (incomingFs.getD "goals" (.jarr .lnil)))))
  let m := m.setKey "constraints"
    (.jarr (JList.ofList (unique_list_merge
      (m.getD "constraints" (.jarr .lnil))
      (incomingFs.getD "constraints" (.jarr .lnil)))))
  let m := m.setKey "verified_facts"
    (.jarr (JList.ofList (unique_list_merge
      (m.getD "verified_facts" (.jarr .lnil))
      (incomingFs.getD "verified_facts" (.jarr .lnil)))))
  let m := m.setKey "environment"
    (envMerge (m.getD "environment" .jnull) (incomingFs.getD "environment" .jnull))
  let di := (m.getD "detail_index" .jnull).objFieldsD
  let newRes := merge_resolution_index_items
    ((m.getD "detail_index" (.jobj .onil)).objFieldsD.getD "resolutions"
      (.jarr .lnil)).arrItemsD
    ((incomingFs.getD "detail_index" (.jobj .onil)).objFieldsD.getD "resolutions"
      (.jarr .lnil)).arrItemsD
  m.setKey "detail_index" (.jobj (di.setKey "resolutions" (.jarr (JList.ofList newRes))))

/-! ### Id allocation (`allocate_next_res_id`) -/

/-- Decimal digit character (`str` rendering of one digit). -/
def digitChar (d : Nat) : Char :=
  match d with
  | 0 => '0' | 1 => '1' | 2 => '2' | 3 => '3' | 4 => '4'
  | 5 => '5' | 6 => '6' | 7 => '7' | 8 => '8' | _ => '9'

/-- Decimal rendering of `n` with explicit recursion fuel (the fuel is
structural so the definition evaluates by kernel reduction). -/
def decChars : Nat → Nat → List Char
  | 0, _ => []
  | fuel + 1, n =>
    if n < 10 then [digitChar n]
    else decChars fuel (n / 10) ++ [digitChar (n % 10)]

/-- Python `str(n)` for positive `n` (only used with `n ≥ 1`). -/
def decN (n : Nat) : List Char :=
  decChars n n

/-- Zero padding to width 3 (`f"{n:03d}"` for non-negative `n`). -/
def pad3 (s : List Char) : List Char :=
  if s.length < 3 then List.replicate (3 - s.length) '0' ++ s else s

/-- Decimal value of a digit character (inverse of `digitChar`; a proof
device for the injectivity of id formatting). -/
def digitVal (c : Char) : Nat :=
  match c with
  | '0' => 0 | '1' => 1 | '2' => 2 | '3' => 3 | '4' => 4
  | '5' => 5 | '6' => 6 | '7' => 7 | '8' => 8 | _ => 9

/-- Fold a digit string back to the number it denotes (left inverse of
the decimal rendering; a proof device). -/
def parseDec (cs : List Char) : Nat :=
  cs.foldl (fun a c => 10 * a + digitVal c) 0

/-- `f"res-{n:03d}"`. -/
def formatResId (n : Nat) : String :=
  String.mk ("res-".data ++ pad3 (decN n))

/-- The scan loop of `allocate_next_res_id`: starting at `n`, return the
first counter whose id is neither persisted nor reserved.  The Python loop
is unbounded (`while True`); the fuel argument is a modelling device and a
separate theorem shows the fuel used below is always sufficient. -/
def allocScan (occupied : String → Bool) : Nat → Nat → Option Nat
  | _, 0 => none
  | n, fuel + 1 =>
    if occupied (formatResId n) then allocScan occupied (n + 1) fuel else some n

/-- The directory listing filter of `allocate_next_res_id`: names starting
with `res-` (the model's store keys already omit the `.json` suffix). -/
def resDirListing (diskKeys : List String) : List String :=
  diskKeys.filter (fun s => pyStartsWith s "res-")

/-- Whether the scanned id is on disk or reserved in this run. -/
def allocOccupied (diskKeys reserved : List String) (s : String) : Bool :=
  s ∈ resDirListing diskKeys || s ∈ reserved

/-- Fuel that is provably enough for the scan to find a free id. -/
def allocFuel (diskKeys reserved : List String) : Nat :=
  diskKeys.length + reserved.length + 2

/-- The counter value `allocate_next_res_id` stops at (the `getD` default
is never reached; see `allocScan_isSome`). -/
def allocNum (diskKeys reserved : List String) : Nat :=
  (allocScan (allocOccupied diskKeys reserved) 1
    (allocFuel diskKeys reserved)).getD 1

/-- `allocate_next_res_id(res_dir, reserved)`: the fresh id together with
the updated reservation set (the Python function adds the returned id to
`reserved` before returning). -/
def allocate_next_res_id (diskKeys reserved : List String) :
    String × List String :=
  let rid := formatResId (allocNum diskKeys reserved)
  (rid, rid :: reserved)

/-! ### The persistence loop of `parse_model_output_to_context` -/

/-- The error conditions of one run (values of the raised exceptions do
not matter to any claim, only which statement raised). -/
inductive ArchErr where
  | parseFmt : ArchErr
  | badId : ArchErr
  | typeErr : ArchErr
deriving DecidableEq

/-- Mutable state of the per-line loop: the resolution store on disk
(keyed by id), `id_remap`, `written_ids` and `reserved_ids`. -/
structure RunSt where
  disk : JObj
  remap : List (String × String)
  written : List String
  reserved : List String

/-- One iteration of the `for ln in lines` loop: validate the declared id,
remap it on collision (file exists or id reserved this run), write the
record under its final id, and track bookkeeping.  A non-dict line models
the `AttributeError` Python raises on `obj.get`. -/
def processLine (st : RunSt) (line : JVal) : Except ArchErr RunSt :=
  match line with
  | .jobj fs =>
    match fs.lookupKey "id" with
    | some (.jstr rid) =>
      if pyStartsWith rid "res-" then
        if (st.disk.lookupKey rid).isSome || rid ∈ st.reserved then
          let alloc := allocate_next_res_id st.disk.keyList st.reserved
          let newRid := alloc.1
          let obj' := fs.setKey "id" (.jstr newRid)
          Except.ok ⟨st.disk.setKey newRid (.jobj obj'),
            setStr st.remap rid newRid,
            st.written ++ [newRid], alloc.2⟩
        else
          Except.ok ⟨st.disk.setKey rid (.jobj fs), st.remap,
            st.written ++ [rid], rid :: st.reserved⟩
      else Except.error .badId
    | some _ => Except.error .badId
    | none => Except.error .badId
  | _ => Except.error .typeErr

/-- Run the loop over all decoded NDJSON lines; on the first failing line
the loop stops, keeping the files already written (the index is not
written in that case). -/
def processLines : RunSt → List JVal → RunSt × Option ArchErr
  | st, [] => (st, none)
  | st, l :: ls =>
    match processLine st l with
    | .ok st' => processLines st' ls
    | .error e => (st, some e)

/-- Minimal synthesized directory entry for a written id. -/
def minimalEntry (rid : String) : JVal :=
  .jobj (.ocons "id" (.jstr rid)
    (.ocons "problem_signature" (.jstr "")
      (.ocons "summary" (.jstr "")
        (.ocons "tags" (.jarr .lnil)
          (.ocons "artifacts_touched" (.jarr .lnil) .onil)))))

/-- Rewrite the ids of the incoming directory entries through `id_remap`
(step 3 of `parse_model_output_to_context`). -/
def remapItems (remap : List (String × String)) (items : List JVal) :
    List JVal :=
  items.map fun it =>
    match it with
    | .jobj fs =>
      match fs.lookupKey "id" with
      | some (.jstr old) =>
        match lookupStr remap old with
        | some nw => .jobj (fs.setKey "id" (.jstr nw))
        | none => it
      | _ => it
    | _ => it

/-- Result of one archival run: the final resolution store, the index
document written back (absent when the run failed), and the error. -/
structure RunOut where
  disk : JObj
  indexWritten : Option JVal
  err : Option ArchErr

/-- The persistence part of `parse_model_output_to_context`, operating on
the decoded index block and the decoded NDJSON lines: normalize the
incoming index, write each resolution record (remapping colliding ids),
rewrite the incoming directory entries through the remap, synthesize
minimal entries when the reply supplied none but records were written,
and merge with the previously persisted index when one exists. -/
def runArchive (disk0 : JObj) (existing0 : Option JVal) (incoming0 : JVal)
    (lines : List JVal) : RunOut :=
  let infs := normFields incoming0
  let run := processLines ⟨disk0, [], [], []⟩ lines
  match run.2 with
  | some e => ⟨run.1.disk, none, some e⟩
  | none =>
    let st := run.1
    let difs := (infs.getD "detail_index" (.jobj .onil)).objFieldsD
    let items0 := (difs.getD "resolutions" (.jarr .lnil)).arrItemsD
    let items1 := remapItems st.remap items0
    let items2 :=
      if items1.isEmpty && !st.written.isEmpty then
        st.written.map minimalEntry
      else items1
    let infs' := infs.setKey "detail_index"
      (.jobj (difs.setKey "resolutions" (.jarr (JList.ofList items2))))
    let final :=
      match existing0 with
      | some e => mergeIndex (normFields e) infs'
      | none => infs'
    ⟨st.disk, some (.jobj final), none⟩

/-! ### The reply-format gate (`FILE_BLOCK_RE`) -/

/-- The opening marker of the index block. -/
def markIndex : List Char := "===FILE:index.json===".data

/-- The closing marker of either block. -/
def markEnd : List Char := "===END_FILE===".data

/-- The opening marker of the NDJSON block. -/
def markNdjson : List Char := "===FILE:resolutions.ndjson===".data

/-- Python's regex `\s` character class. -/
def pyIsSpace (c : Char) : Bool :=
  c = ' ' || c = '\t' || c = '\n' || c = '\r' || c = Char.ofNat 11 || c = Char.ofNat 12

/-- All suffixes of a character list, longest first. -/
def suffixesOf : List Char → List (List Char)
  | [] => [[]]
  | c :: cs => (c :: cs) :: suffixesOf cs

/-- Whether `pat` occurs as a contiguous substring. -/
def containsSub (pat s : List Char) : Bool :=
  (suffixesOf s).any (fun t => pat.isPrefixOf t)

/-- Whether `FILE_BLOCK_RE.search(out_text)` finds a match: an index-block
open marker, later a close marker, then (only whitespace between) the
NDJSON open marker, then a close marker.  The lazy `.*?` groups match any
content, so a match exists exactly when such a decomposition exists. -/
def hasFileBlocks (s : List Char) : Bool :=
  (suffixesOf s).any fun t1 =>
    markIndex.isPrefixOf t1 &&
    ((suffixesOf (t1.drop markIndex.length)).any fun t2 =>
      markEnd.isPrefixOf t2 &&
      (let r2 := (t2.drop markEnd.length).dropWhile pyIsSpace
       markNdjson.isPrefixOf r2 &&
       containsSub markEnd (r2.drop markNdjson.length)))

/-- `parse_model_output_to_context(out_text, claude_dir)`: the regex gate
raises before anything is written when the two delimited blocks are
absent; otherwise the run proceeds on the decoded blocks.  JSON text
decoding itself is not modelled: the decoded index block and NDJSON lines
are passed alongside the raw reply text. -/
def parse_model_output_to_context (replyText : List Char) (disk0 : JObj)
    (existing0 : Option JVal) (decodedIndex : JVal) (decodedLines : List JVal) :
    RunOut :=
  if hasFileBlocks replyText then
    runArchive disk0 existing0 decodedIndex decodedLines
  else ⟨disk0, none, some .parseFmt⟩

/-! ### The material digest builder (`build_session_material`) -/

/-- Python `str.strip()` (strip whitespace at both ends). -/
def pyStrip (cs : List Char) : List Char :=
  ((cs.dropWhile pyIsSpace).reverse.dropWhile pyIsSpace).reverse

/-- `"\n".join(...)`. -/
def joinNL (xs : List (List Char)) : List Char :=
  List.intercalate ("\n".data) xs

mutual
/-- `collect_text_from_any(node, out)`: the strings appended to `out`, in
order — a stripped non-blank string; every element of a list; for a dict,
the `{"type": "text"}` text block, then the values under `content`,
`message` and `input`. -/
def collect_text_from_any : JVal → List (List Char)
  | .jstr s => let t := pyStrip s.data; if t.isEmpty then [] else [t]
  | .jarr xs => collectArr xs
  | .jobj fs =>
    (match fs.lookupKey "type", fs.lookupKey "text" with
     | some (.jstr ty), some (.jstr tx) =>
       if ty = "text" then
         (let t := pyStrip tx.data; if t.isEmpty then [] else [t])
       else []
     | _, _ => []) ++
    collectUnderKey "content" fs ++
    collectUnderKey "message" fs ++
    collectUnderKey "input" fs
  | _ => []
/-- Collect from each array element. -/
def collectArr : JList → List (List Char)
  | .lnil => []
  | .lcons x xs => collect_text_from_any x ++ collectArr xs
/-- Collect from the value bound to `key`, when present (`if key in node:
collect(node[key])`; dict keys are unique, so the first binding is it). -/
def collectUnderKey (key : String) : JObj → List (List Char)
  | .onil => []
  | .ocons k v fs =>
    if k = key then collect_text_from_any v else collectUnderKey key fs
end

/-- Collect from an optional value (`node.get(k)` is `None` when absent,
and collecting from `None` yields nothing). -/
def collectOpt : Option JVal → List (List Char)
  | none => []
  | some v => collect_text_from_any v

/-- `extract_text_from_message_obj(msg_obj)`. -/
def extract_text_from_message_obj (msg : JVal) : List Char :=
  match msg with
  | .jobj fs =>
    pyStrip (joinNL ((collectOpt (fs.lookupKey "content")).filter
      (fun x => !x.isEmpty)))
  | _ => []

/-- The five material channels accumulated by the event loop. -/
structure Channels where
  summaries : List (List Char)
  dialogue : List (List Char)
  tool_uses : List (List Char)
  tool_results : List (List Char)
  tool_stats : List (List Char)

/-- The empty channels. -/
def Channels.empty : Channels := ⟨[], [], [], [], []⟩

/-- `e.get("type") == t` for a string `t`. -/
def typeIs (fs : JObj) (t : String) : Bool :=
  match fs.lookupKey "type" with
  | some (.jstr s) => s = t
  | _ => false

/-- The tool-invocation descriptor appended for one `tool_use` content
item: `f"- tool_use: {name} ({tid}) {desc[:600]}"`. -/
def toolUseLine (ifs : JObj) : List Char :=
  let desc0 : List Char :=
    match ifs.lookupKey "input" with
    | some (.jobj infs) =>
      (match infs.lookupKey "description" with
       | some (.jstr d) => d.data
       | _ =>
         match infs.lookupKey "prompt" with
         | some (.jstr p) => p.data
         | _ => [])
    | _ => []
  let desc := (pyStrip desc0).filter (fun c => c ≠ '\r')
  "- tool_use: ".data ++ pyStrTop (ifs.getD "name" .jnull) ++
    " (".data ++ pyStrTop (ifs.getD "id" .jnull) ++ ") ".data ++
    desc.take 600

/-- The statistics descriptor appended for a top-level `toolUseResult`. -/
def toolStatsLine (tfs : JObj) : List Char :=
  "- toolUseResult: status=".data ++ pyStrTop (tfs.getD "status" .jnull) ++
    ", agentId=".data ++ pyStrTop (tfs.getD "agentId" .jnull) ++
    ", totalTokens=".data ++ pyStrTop (tfs.getD "totalTokens" .jnull) ++
    ", durationMs=".data ++ pyStrTop (tfs.getD "totalDurationMs" .jnull)

/-- The `tool_use` descriptors contributed by one `assistant` event's
message content list. -/
def toolUseEntries (items : List JVal) : List (List Char) :=
  items.foldl (fun acc it =>
    match it with
    | .jobj ifs => if typeIs ifs "tool_use" then acc ++ [toolUseLine ifs] else acc
    | _ => acc) []

/-- The `tool_result` text blocks contributed by one `user` event's
message content list. -/
def toolResultEntries (items : List JVal) : List (List Char) :=
  items.foldl (fun acc it =>
    match it with
    | .jobj ifs =>
      if typeIs ifs "tool_result" then
        let block := pyStrip (joinNL
          ((collectOpt (ifs.lookupKey "content")).filter (fun x => !x.isEmpty)))
        if block.isEmpty then acc else acc ++ [block]
      else acc
    | _ => acc) []

/-- The `message` object of an event, or `{}` when absent or not a dict. -/
def messageFields (fs : JObj) : JObj :=
  match fs.lookupKey "message" with
  | some (.jobj mfs) => mfs
  | _ => .onil

/-- One iteration of the event loop of `build_session_material`. -/
def stepEvent (acc : Channels) (e : JVal) : Channels :=
  match e with
  | .jobj fs =>
    if typeIs fs "summary" && (fs.getD "summary" .jnull).isStrB then
      match fs.lookupKey "summary" with
      | some (.jstr s) =>
        { acc with summaries := acc.summaries ++ [pyStrip s.data] }
      | _ => acc
    else
      let acc :=
        if typeIs fs "assistant" then
          match (messageFields fs).lookupKey "content" with
          | some (.jarr items) =>
            { acc with tool_uses := acc.tool_uses ++ toolUseEntries items.toList }
          | _ => acc
        else acc
      let acc :=
        if typeIs fs "user" then
          match (messageFields fs).lookupKey "content" with
          | some (.jarr items) =>
            { acc with tool_results := acc.tool_results ++ toolResultEntries items.toList }
          | _ => acc
        else acc
      let acc :=
        if typeIs fs "user" || typeIs fs "assistant" then
          match fs.lookupKey "message" with
          | some (.jobj mfs) =>
            let tStr : List Char :=
              match fs.lookupKey "type" with
              | some (.jstr s) => s.data
              | _ => []
            let roleV := mfs.getD "role" .jnull
            let role1 : JVal := if roleV.pyTruthy then roleV else .jstr (String.mk tStr)
            let role2 : List Char :=
              match role1 with
              | .jstr r => pyStrip r.data
              | _ => tStr
            let text := extract_text_from_message_obj (.jobj mfs)
            if text.isEmpty then acc
            else { acc with dialogue := acc.dialogue ++ [role2 ++ ": ".data ++ text] }
          | _ => acc
        else acc
      match fs.lookupKey "toolUseResult" with
      | some (.jobj tfs) =>
        let acc := { acc with tool_stats := acc.tool_stats ++ [toolStatsLine tfs] }
        let block := pyStrip (joinNL
          ((collectOpt (tfs.lookupKey "content")).filter (fun x => !x.isEmpty)))
        if block.isEmpty then acc
        else { acc with tool_results := acc.tool_results ++ [block] }
      | _ => acc
  | _ => acc

/-- The channels after the whole event loop. -/
def digestChannels (events : List JVal) : Channels :=
  events.foldl stepEvent Channels.empty

/-- `xs[-n:]` for a positive bound: the most recent `n` entries. -/
def lastN (n : Nat) (xs : List (List Char)) : List (List Char) :=
  xs.drop (xs.length - n)

/-- `blob[-n:]` on text (Python returns the whole string for `n = 0`). -/
def pyLastChars (n : Nat) (s : List Char) : List Char :=
  if n = 0 then s else s.drop (s.length - n)

/-- The sectioned material list assembled from the channels (lines later
joined with newlines). -/
def assembleMaterial (c : Channels) : List (List Char) :=
  let m : List (List Char) := []
  let m := if c.summaries.isEmpty then m else
    m ++ ["【summary 事件】".data] ++
      ((lastN 80 c.summaries).map (fun s => "- ".data ++ s)) ++ [[]]
  let m := if c.tool_uses.isEmpty then m else
    m ++ ["【tool_use 事件（截取）】".data] ++ lastN 120 c.tool_uses ++ [[]]
  let m := if c.tool_stats.isEmpty then m else
    m ++ ["【toolUseResult 统计】".data] ++ lastN 120 c.tool_stats ++ [[]]
  let m := if c.tool_results.isEmpty then m else
    m ++ ["【tool_result / toolUseResult 输出（重点，截取）】".data] ++
      ((lastN 120 c.tool_results).flatMap (fun b => [b.take 20000, "\n---\n".data]))
  let m := if c.dialogue.isEmpty then m else
    m ++ ["【最近对话（截取）】".data] ++ lastN 120 c.dialogue
  m

/-- `build_session_material(events, max_chars)`. -/
def build_session_material (events : List JVal) (maxChars : Nat) : List Char :=
  pyLastChars maxChars (pyStrip (joinNL (assembleMaterial (digestChannels events))))

/-! ### Helpers used by the claim statements -/

/-- The validity check `parse_model_output_to_context` applies to one
decoded NDJSON line: it must be a dict whose `id` is a string starting
with `res-` (`if not isinstance(rid, str) or not rid.startswith("res-")`). -/
def lineIdOk (line : JVal) : Bool :=
  match line with
  | .jobj fs =>
    match fs.lookupKey "id" with
    | some (.jstr rid) => pyStartsWith rid "res-"
    | _ => false
  | _ => false

/-- Modelled from the spec: the id shape `res-NNN` — the literal prefix
`res-` followed by a zero-padded (width at least 3) non-empty run of
decimal digits.  The code does not implement this check; it is stated here
only to compare the specified validation against the implemented one. -/
def specResIdShape (s : String) : Bool :=
  pyStartsWith s "res-" &&
    (let digits := s.data.drop 4
     !digits.isEmpty && digits.length ≥ 3 && digits.all (fun c => c.isDigit))

/-- The `detail_index.resolutions` items of an index object. -/
def resItemsOf (fs : JObj) : List JVal :=
  ((fs.getD "detail_index" (.jobj .onil)).objFieldsD.getD "resolutions"
    (.jarr .lnil)).arrItemsD

/-- The `id` of a directory entry, when the entry is a dict with a string
`id` (the key under which `merge_resolution_index_items` merges it). -/
def entryId : JVal → Option String
  | .jobj fs =>
    (match fs.lookupKey "id" with
     | some (.jstr s) => some s
     | _ => none)
  | _ => none

/-- Whether every directory entry that carries an id refers to a record
present in the store. -/
def indexBackedB (items : List JVal) (disk : JObj) : Bool :=
  items.all fun it =>
    match entryId it with
    | some rid => (disk.lookupKey rid).isSome
    | none => true

/-- The elements a merge argument contributes when it is a list. -/
def jItems (v : JVal) : List JVal :=
  v.arrItemsD

/-- The invariant the per-line loop maintains over the resolution store,
relative to the store `disk0` present when the run began: pre-existing
files are untouched, the store is exactly `disk0` plus the written ids,
written ids are fresh and distinct, every written file carries its own id
in its `id` field, the reservation set tracks the written ids, the store
grew by exactly the written count, and every remap target is a written id
different from its source. -/
def RunInv (disk0 : JObj) (st : RunSt) : Prop :=
  (∀ k, (disk0.lookupKey k).isSome → st.disk.lookupKey k = disk0.lookupKey k) ∧
  (∀ k, (st.disk.lookupKey k).isSome ↔
    ((disk0.lookupKey k).isSome ∨ k ∈ st.written)) ∧
  st.written.Nodup ∧
  (∀ k ∈ st.written, disk0.lookupKey k = none) ∧
  (∀ k ∈ st.written, ∃ fs, st.disk.lookupKey k = some (.jobj fs) ∧
    fs.lookupKey "id" = some (.jstr k)) ∧
  (∀ k, k ∈ st.reserved ↔ k ∈ st.written) ∧
  (st.disk.size = disk0.size + st.written.length) ∧
  (∀ p ∈ st.remap, p.2 ∈ st.written ∧ p.1 ≠ p.2)

/-! ### Lemmas about object updates -/

/-- Induction along the binding spine of an object (the `induction` tactic
cannot use the mutual recursor directly). -/
theorem JObj.spineIndObj {motive : JObj → Prop} (h0 : motive .onil)
    (h1 : ∀ k v fs, motive fs → motive (.ocons k v fs)) : ∀ o, motive o
  | .onil => h0
  | .ocons k v fs => h1 k v fs (JObj.spineIndObj h0 h1 fs)

/-- Induction along the element spine of an array value. -/
theorem JList.spineIndList {motive : JList → Prop} (h0 : motive .lnil)
    (h1 : ∀ v xs, motive xs → motive (.lcons v xs)) : ∀ l, motive l
  | .lnil => h0
  | .lcons v xs => h1 v xs (JList.spineIndList h0 h1 xs)

theorem lookupKey_setKey_self (o : JObj) (k : String) (v : JVal) :
    (o.setKey k v).lookupKey k = some v := by
  induction o using JObj.spineIndObj with
  | h0 => simp [JObj.setKey, JObj.lookupKey]
  | h1 k' w fs ih =>
    by_cases h : k' = k <;> simp [JObj.setKey, JObj.lookupKey, h, ih]

theorem lookupKey_setKey_ne (o : JObj) (k k' : String) (v : JVal)
    (h : k ≠ k') : (o.setKey k v).lookupKey k' = o.lookupKey k' := by
  induction o using JObj.spineIndObj with
  | h0 => simp [JObj.setKey, JObj.lookupKey, h]
  | h1 k0 w fs ih =>
    by_cases h0 : k0 = k
    · subst h0; simp [JObj.setKey, JObj.lookupKey, h]
    · simp only [JObj.setKey, h0, if_false]
      by_cases h1 : k0 = k' <;> simp [JObj.lookupKey, h1, ih]

theorem setKey_eq_of_lookup (o : JObj) (k : String) (v : JVal)
    (h : o.lookupKey k = some v) : o.setKey k v = o := by
  induction o using JObj.spineIndObj with
  | h0 => simp [JObj.lookupKey] at h
  | h1 k0 w fs ih =>
    by_cases h0 : k0 = k
    · subst h0
      simp [JObj.lookupKey] at h
      simp [JObj.setKey, h]
    · simp [JObj.lookupKey, h0] at h
      simp [JObj.setKey, h0, ih h]

theorem setKey_setKey_self (o : JObj) (k : String) (v w : JVal) :
    ((o.setKey k v).setKey k w) = o.setKey k w := by
  induction o using JObj.spineIndObj with
  | h0 => simp [JObj.setKey]
  | h1 k0 u fs ih =>
    by_cases h0 : k0 = k <;> simp [JObj.setKey, h0, ih]

theorem lookupKey_setDefaultKey_ne (o : JObj) (k k' : String) (v : JVal)
    (h : k ≠ k') : (o.setDefaultKey k v).lookupKey k' = o.lookupKey k' := by
  induction o using JObj.spineIndObj with
  | h0 => simp [JObj.setDefaultKey, JObj.lookupKey, h]
  | h1 k0 w fs ih =>
    by_cases h0 : k0 = k
    · subst h0; simp [JObj.setDefaultKey, JObj.lookupKey, h]
    · simp only [JObj.setDefaultKey, h0, if_false]
      by_cases h1 : k0 = k' <;> simp [JObj.lookupKey, h1, ih]

theorem lookupKey_setDefaultKey_self (o : JObj) (k : String) (v : JVal) :
    (o.setDefaultKey k v).lookupKey k = some (o.getD k v) := by
  induction o using JObj.spineIndObj with
  | h0 => simp [JObj.setDefaultKey, JObj.lookupKey, JObj.getD]
  | h1 k0 w fs ih =>
    by_cases h0 : k0 = k
    · subst h0; simp [JObj.setDefaultKey, JObj.lookupKey, JObj.getD]
    · simp [JObj.setDefaultKey, JObj.lookupKey, h0, ih, JObj.getD]

theorem setDefaultKey_of_lookup_some (o : JObj) (k : String) (v w : JVal)
    (h : o.lookupKey k = some w) : o.setDefaultKey k v = o := by
  induction o using JObj.spineIndObj with
  | h0 => simp [JObj.lookupKey] at h
  | h1 k0 u fs ih =>
    by_cases h0 : k0 = k
    · subst h0; simp [JObj.setDefaultKey]
    · simp [JObj.lookupKey, h0] at h
      simp [JObj.setDefaultKey, h0, ih h]

theorem lookupKey_isSome_iff_mem_keyList (o : JObj) (k : String) :
    (o.lookupKey k).isSome ↔ k ∈ o.keyList := by
  induction o using JObj.spineIndObj with
  | h0 => simp [JObj.lookupKey, JObj.keyList]
  | h1 k0 w fs ih =>
    by_cases h0 : k0 = k
    · subst h0; simp [JObj.lookupKey, JObj.keyList]
    · simp [JObj.lookupKey, JObj.keyList, h0, ih, Ne.symm h0]

theorem keyList_setKey_of_absent (o : JObj) (k : String) (v : JVal)
    (h : o.lookupKey k = none) : (o.setKey k v).keyList = o.keyList ++ [k] := by
  induction o using JObj.spineIndObj with
  | h0 => simp [JObj.setKey, JObj.keyList]
  | h1 k0 w fs ih =>
    by_cases h0 : k0 = k
    · subst h0; simp [JObj.lookupKey] at h
    · simp [JObj.lookupKey, h0] at h
      simp [JObj.setKey, JObj.keyList, h0, ih h]

theorem size_setKey_of_absent (o : JObj) (k : String) (v : JVal)
    (h : o.lookupKey k = none) : (o.setKey k v).size = o.size + 1 := by
  induction o using JObj.spineIndObj with
  | h0 => simp [JObj.setKey, JObj.size]
  | h1 k0 w fs ih =>
    by_cases h0 : k0 = k
    · subst h0; simp [JObj.lookupKey] at h
    · simp [JObj.lookupKey, h0] at h
      simp [JObj.setKey, JObj.size, h0, ih h]

theorem lookupStr_set_self (ps : List (String × String)) (k v : String) :
    lookupStr (setStr ps k v) k = some v := by
  induction ps with
  | nil => simp [setStr, lookupStr]
  | cons p ps ih =>
    by_cases h : p.1 = k <;> simp [setStr, lookupStr, h, ih]

theorem lookupStr_set_ne (ps : List (String × String)) (k k' v : String)
    (h : k ≠ k') : lookupStr (setStr ps k v) k' = lookupStr ps k' := by
  induction ps with
  | nil => simp [setStr, lookupStr, h]
  | cons p ps ih =>
    by_cases h0 : p.1 = k
    · obtain ⟨a, b⟩ := p
      simp only at h0; subst h0
      simp [setStr, lookupStr, h]
    · obtain ⟨a, b⟩ := p
      simp only at h0
      simp only [setStr, h0, if_false]
      by_cases h1 : a = k' <;> simp [lookupStr, h1, ih]

theorem mem_setStr (ps : List (String × String)) (k v : String) (p : String × String)
    (h : p ∈ setStr ps k v) : p ∈ ps ∨ p = (k, v) := by
  induction ps with
  | nil => simp [setStr] at h; simp [h]
  | cons q ps ih =>
    obtain ⟨a, b⟩ := q
    by_cases h0 : a = k
    · subst h0
      simp [setStr] at h
      rcases h with h | h
      · right; simp [h]
      · left; simp [h]
    · simp [setStr, h0] at h
      rcases h with h | h
      · left; simp [h]
      · rcases ih h with h1 | h1
        · left; simp [h1]
        · right; exact h1

theorem getD_setKey_self (o : JObj) (k : String) (v d : JVal) :
    (o.setKey k v).getD k d = v := by
  simp [JObj.getD, lookupKey_setKey_self]

theorem getD_setKey_ne (o : JObj) (k k' : String) (v d : JVal)
    (h : k ≠ k') : (o.setKey k v).getD k' d = o.getD k' d := by
  simp [JObj.getD, lookupKey_setKey_ne _ _ _ _ h]

/-! ### Field lookups of the index merge -/

theorem lookup_merge_project (S D : JObj) :
    (mergeIndex S D).lookupKey "project" =
      some (D.getD "project" (S.getD "project" .jnull)) := by
  simp [mergeIndex, lookupKey_setKey_self, lookupKey_setKey_ne, getD_setKey_ne]

theorem lookup_merge_current_state (S D : JObj) :
    (mergeIndex S D).lookupKey "current_state" =
      some (D.getD "current_state" (S.getD "current_state" .jnull)) := by
  simp [mergeIndex, lookupKey_setKey_self, lookupKey_setKey_ne, getD_setKey_ne]

theorem lookup_merge_next_actions (S D : JObj) :
    (mergeIndex S D).lookupKey "next_actions" =
      some (D.getD "next_actions" (S.getD "next_actions" .jnull)) := by
  simp [mergeIndex, lookupKey_setKey_self, lookupKey_setKey_ne, getD_setKey_ne]

theorem lookup_merge_goals (S D : JObj) :
    (mergeIndex S D).lookupKey "goals" =
      some (.jarr (JList.ofList (unique_list_merge
        (S.getD "goals" (.jarr .lnil)) (D.getD "goals" (.jarr .lnil))))) := by
  simp [mergeIndex, lookupKey_setKey_self, lookupKey_setKey_ne, getD_setKey_ne]

theorem lookup_merge_constraints (S D : JObj) :
    (mergeIndex S D).lookupKey "constraints" =
      some (.jarr (JList.ofList (unique_list_merge
        (S.getD "constraints" (.jarr .lnil)) (D.getD "constraints" (.jarr .lnil))))) := by
  simp [mergeIndex, lookupKey_setKey_self, lookupKey_setKey_ne, getD_setKey_ne]

theorem lookup_merge_verified_facts (S D : JObj) :
    (mergeIndex S D).lookupKey "verified_facts" =
      some (.jarr (JList.ofList (unique_list_merge
        (S.getD "verified_facts" (.jarr .lnil))
        (D.getD "verified_facts" (.jarr .lnil))))) := by
  simp [mergeIndex, lookupKey_setKey_self, lookupKey_setKey_ne, getD_setKey_ne]

theorem lookup_merge_environment (S D : JObj) :
    (mergeIndex S D).lookupKey "environment" =
      some (envMerge (S.getD "environment" .jnull) (D.getD "environment" .jnull)) := by
  simp [mergeIndex, lookupKey_setKey_self, lookupKey_setKey_ne, getD_setKey_ne]

theorem lookup_merge_detail (S D : JObj) :
    (mergeIndex S D).lookupKey "detail_index" =
      some (.jobj (((S.getD "detail_index" .jnull).objFieldsD).setKey "resolutions"
        (.jarr (JList.ofList (merge_resolution_index_items
          (resItemsOf S) (resItemsOf D)))))) := by
  simp [mergeIndex, resItemsOf, lookupKey_setKey_self, lookupKey_setKey_ne,
    getD_setKey_ne]

/-! ### Lemmas about `unique_list_merge` -/

theorem toList_ofList (xs : List JVal) : (JList.ofList xs).toList = xs := by
  induction xs with
  | nil => rfl
  | cons x xs ih => simp [JList.ofList, JList.toList, ih]

theorem ulmStep_eq (acc : List JVal × List (List Char)) (item : JVal) :
    ulmStep acc item =
      if mergeKey item ∈ acc.2 then acc
      else (acc.1 ++ [item], mergeKey item :: acc.2) := rfl

theorem ulm_seen_mono (xs : List JVal) (acc : List JVal × List (List Char))
    (k : List Char) (h : k ∈ acc.2) : k ∈ (xs.foldl ulmStep acc).2 := by
  induction xs generalizing acc with
  | nil => exact h
  | cons x xs ih =>
    simp only [List.foldl_cons]
    apply ih
    rw [ulmStep_eq]
    by_cases hk : mergeKey x ∈ acc.2 <;> simp [hk, h]

theorem ulm_key_seen (xs : List JVal) (acc : List JVal × List (List Char))
    (x : JVal) (h : x ∈ xs) : mergeKey x ∈ (xs.foldl ulmStep acc).2 := by
  induction xs generalizing acc with
  | nil => simp at h
  | cons y ys ih =>
    simp only [List.foldl_cons]
    rcases List.mem_cons.mp h with h | h
    · subst h
      apply ulm_seen_mono
      rw [ulmStep_eq]
      by_cases hk : mergeKey x ∈ acc.2 <;> simp [hk]
    · exact ih _ h

theorem ulm_skip_all (xs : List JVal) (acc : List JVal × List (List Char))
    (h : ∀ x ∈ xs, mergeKey x ∈ acc.2) : xs.foldl ulmStep acc = acc := by
  induction xs generalizing acc with
  | nil => rfl
  | cons x xs ih =>
    simp only [List.foldl_cons]
    rw [ulmStep_eq, if_pos (h x (by simp))]
    exact ih acc (fun y hy => h y (by simp [hy]))

theorem ulm_out_grow (xs : List JVal) (acc : List JVal × List (List Char)) :
    ∃ ext, (xs.foldl ulmStep acc).1 = acc.1 ++ ext ∧
      ∀ y ∈ ext, y ∈ xs ∧ mergeKey y ∉ acc.2 := by
  induction xs generalizing acc with
  | nil => exact ⟨[], by simp⟩
  | cons x xs ih =>
    simp only [List.foldl_cons]
    rw [ulmStep_eq]
    by_cases hk : mergeKey x ∈ acc.2
    · rw [if_pos hk]
      obtain ⟨ext, he, hall⟩ := ih acc
      exact ⟨ext, he, fun y hy => ⟨by simp [(hall y hy).1], (hall y hy).2⟩⟩
    · rw [if_neg hk]
      obtain ⟨ext, he, hall⟩ := ih (acc.1 ++ [x], mergeKey x :: acc.2)
      refine ⟨x :: ext, by simpa using he, ?_⟩
      intro y hy
      rcases List.mem_cons.mp hy with h | h
      · subst h; exact ⟨by simp, hk⟩
      · obtain ⟨h1, h2⟩ := hall y h
        exact ⟨by simp [h1], fun hc => h2 (by simp [hc])⟩

theorem ulm_inv (xs : List JVal) (acc : List JVal × List (List Char))
    (h : ∀ k, k ∈ acc.2 ↔ k ∈ acc.1.map mergeKey) :
    ∀ k, k ∈ (xs.foldl ulmStep acc).2 ↔ k ∈ (xs.foldl ulmStep acc).1.map mergeKey := by
  induction xs generalizing acc with
  | nil => exact h
  | cons x xs ih =>
    simp only [List.foldl_cons]
    apply ih
    rw [ulmStep_eq]
    by_cases hk : mergeKey x ∈ acc.2
    · simpa [hk] using h
    · intro k
      simp only [if_neg hk, List.mem_cons, List.map_append, List.mem_append, List.map_cons]
      rw [h k]
      simp [or_comm]

theorem ulm_nodup (xs : List JVal) (acc : List JVal × List (List Char))
    (hn : (acc.1.map mergeKey).Nodup)
    (h : ∀ k, k ∈ acc.2 ↔ k ∈ acc.1.map mergeKey) :
    ((xs.foldl ulmStep acc).1.map mergeKey).Nodup := by
  induction xs generalizing acc with
  | nil => exact hn
  | cons x xs ih =>
    simp only [List.foldl_cons]
    rw [ulmStep_eq]
    by_cases hk : mergeKey x ∈ acc.2
    · rw [if_pos hk]; exact ih acc hn h
    · rw [if_neg hk]
      apply ih
      · simp only [List.map_append, List.map_cons, List.map_nil]
        rw [List.nodup_append]
        refine ⟨hn, by simp, ?_⟩
        intro a ha
        simp only [List.mem_cons, List.not_mem_nil, or_false]
        intro hc
        subst hc
        exact hk ((h _).mpr ha)
      · intro k
        simp only [List.mem_cons, List.map_append, List.mem_append, List.map_cons]
        rw [h k]
        simp [or_comm]

theorem ulm_keep_all (M : List JVal) (acc : List JVal × List (List Char))
    (hn : (M.map mergeKey).Nodup) (hfresh : ∀ m ∈ M, mergeKey m ∉ acc.2) :
    (M.foldl ulmStep acc).1 = acc.1 ++ M := by
  induction M generalizing acc with
  | nil => simp
  | cons x xs ih =>
    simp only [List.foldl_cons]
    rw [ulmStep_eq, if_neg (hfresh x (by simp))]
    rw [ih (acc.1 ++ [x], mergeKey x :: acc.2) (by simpa using hn.of_cons)]
    · simp
    · intro m hm
      simp only [List.mem_cons, not_or]
      constructor
      · intro hc
        rw [List.map_cons, List.nodup_cons] at hn
        exact hn.1 (hc ▸ List.mem_map_of_mem mergeKey hm)
      · exact hfresh m (by simp [hm])

theorem ulm_mem_src (xs : List JVal) (acc : List JVal × List (List Char))
    (y : JVal) (h : y ∈ (xs.foldl ulmStep acc).1) : y ∈ acc.1 ∨ y ∈ xs := by
  obtain ⟨ext, he, hall⟩ := ulm_out_grow xs acc
  rw [he] at h
  rcases List.mem_append.mp h with h | h
  · exact Or.inl h
  · exact Or.inr (hall y h).1

theorem ulmPass_inv (v : JVal) (acc : List JVal × List (List Char))
    (h : ∀ k, k ∈ acc.2 ↔ k ∈ acc.1.map mergeKey) :
    ∀ k, k ∈ (ulmPass acc v).2 ↔ k ∈ (ulmPass acc v).1.map mergeKey := by
  cases v <;> simp only [ulmPass] <;> first
  | exact h
  | exact ulm_inv _ _ h

theorem ulmPass_nodup (v : JVal) (acc : List JVal × List (List Char))
    (hn : (acc.1.map mergeKey).Nodup)
    (h : ∀ k, k ∈ acc.2 ↔ k ∈ acc.1.map mergeKey) :
    ((ulmPass acc v).1.map mergeKey).Nodup := by
  cases v <;> simp only [ulmPass] <;> first
  | exact hn
  | exact ulm_nodup _ _ hn h

theorem ulmPass_key_seen (v : JVal) (acc : List JVal × List (List Char))
    (x : JVal) (h : x ∈ jItems v) : mergeKey x ∈ (ulmPass acc v).2 := by
  cases v <;> simp [jItems, JVal.arrItemsD] at h
  exact ulm_key_seen _ _ _ h

theorem ulmPass_skip_all (v : JVal) (acc : List JVal × List (List Char))
    (h : ∀ x ∈ jItems v, mergeKey x ∈ acc.2) : ulmPass acc v = acc := by
  cases v <;> simp only [ulmPass]
  exact ulm_skip_all _ _ (by simpa [jItems, JVal.arrItemsD] using h)

theorem ulm_nodup_keys (a b : JVal) :
    ((unique_list_merge a b).map mergeKey).Nodup := by
  unfold unique_list_merge
  apply ulmPass_nodup
  · apply ulmPass_nodup
    · simp
    · simp
  · apply ulmPass_inv
    simp

theorem ulm_idem (a b : JVal) :
    unique_list_merge (.jarr (JList.ofList (unique_list_merge a b))) b =
      unique_list_merge a b := by
  unfold unique_list_merge
  have hinv0 : ∀ k, k ∈ (([], []) : List JVal × List (List Char)).2 ↔
      k ∈ (([], []) : List JVal × List (List Char)).1.map mergeKey := by simp
  have hinvP2 := ulmPass_inv b _ (ulmPass_inv a _ hinv0)
  have hnodupM := ulmPass_nodup b _ (ulmPass_nodup a _ (by simp) hinv0)
    (ulmPass_inv a _ hinv0)
  set M := (ulmPass (ulmPass ([], []) a) b).1 with hM
  -- first pass over the already-merged list keeps it whole
  have hQ1 : ulmPass ([], []) (.jarr (JList.ofList M)) =
      (M.foldl ulmStep ([], [])) := by
    simp [ulmPass, toList_ofList]
  have hkeep : (M.foldl ulmStep ([], [])).1 = M := by
    have := ulm_keep_all M ([], []) hnodupM (by simp)
    simpa using this
  have hQinv := ulm_inv M ([], []) (by simp)
  -- every incoming item's key is already among the merged keys
  have hcover : ∀ x ∈ jItems b, mergeKey x ∈ (M.foldl ulmStep ([], [])).2 := by
    intro x hx
    have h1 : mergeKey x ∈ (ulmPass (ulmPass ([], []) a) b).2 :=
      ulmPass_key_seen b _ x hx
    have h2 : mergeKey x ∈ M.map mergeKey := (hinvP2 _).mp h1
    rw [hQinv]
    rw [hkeep]
    exact h2
  rw [hQ1, ulmPass_skip_all b _ hcover, hkeep]

/-! ### Lemmas about `merge_resolution_index_items` -/

theorem mriStep_eq (acc : List JVal × List String) (it : JVal) :
    mriStep acc it =
      match entryId it with
      | none => acc
      | some rid => if rid ∈ acc.2 then acc else (acc.1 ++ [it], rid :: acc.2) := by
  cases it <;> simp only [mriStep, entryId]
  case jobj fs =>
    cases h : fs.lookupKey "id" with
    | none => simp
    | some v => cases v <;> simp

theorem mriStep_eq_none (acc : List JVal × List String) (it : JVal)
    (h : entryId it = none) : mriStep acc it = acc := by
  rw [mriStep_eq, h]

theorem mriStep_eq_some (acc : List JVal × List String) (it : JVal)
    (rid : String) (h : entryId it = some rid) :
    mriStep acc it =
      if rid ∈ acc.2 then acc else (acc.1 ++ [it], rid :: acc.2) := by
  rw [mriStep_eq, h]

theorem mri_seen_mono (xs : List JVal) (acc : List JVal × List String)
    (k : String) (h : k ∈ acc.2) : k ∈ (xs.foldl mriStep acc).2 := by
  induction xs generalizing acc with
  | nil => exact h
  | cons x xs ih =>
    simp only [List.foldl_cons]
    apply ih
    cases hx : entryId x with
    | none => rw [mriStep_eq_none _ _ hx]; exact h
    | some rid =>
      rw [mriStep_eq_some _ _ _ hx]
      by_cases hk : rid ∈ acc.2 <;> simp [hk, h]

theorem mri_key_seen (xs : List JVal) (acc : List JVal × List String)
    (x : JVal) (rid : String) (hx : entryId x = some rid) (h : x ∈ xs) :
    rid ∈ (xs.foldl mriStep acc).2 := by
  induction xs generalizing acc with
  | nil => simp at h
  | cons y ys ih =>
    simp only [List.foldl_cons]
    rcases List.mem_cons.mp h with h | h
    · subst h
      apply mri_seen_mono
      rw [mriStep_eq_some _ _ _ hx]
      by_cases hk : rid ∈ acc.2 <;> simp [hk]
    · exact ih _ h

theorem mri_skip_all (xs : List JVal) (acc : List JVal × List String)
    (h : ∀ x ∈ xs, ∀ rid, entryId x = some rid → rid ∈ acc.2) :
    xs.foldl mriStep acc = acc := by
  induction xs generalizing acc with
  | nil => rfl
  | cons x xs ih =>
    simp only [List.foldl_cons]
    have hstep : mriStep acc x = acc := by
      cases hx : entryId x with
      | none => exact mriStep_eq_none _ _ hx
      | some rid => rw [mriStep_eq_some _ _ _ hx, if_pos (h x (by simp) rid hx)]
    rw [hstep]
    exact ih acc (fun y hy => h y (by simp [hy]))

theorem mri_inv (xs : List JVal) (acc : List JVal × List String)
    (h : ∀ k, k ∈ acc.2 ↔ k ∈ acc.1.filterMap entryId) :
    ∀ k, k ∈ (xs.foldl mriStep acc).2 ↔
      k ∈ (xs.foldl mriStep acc).1.filterMap entryId := by
  induction xs generalizing acc with
  | nil => exact h
  | cons x xs ih =>
    simp only [List.foldl_cons]
    apply ih
    cases hx : entryId x with
    | none => rw [mriStep_eq_none _ _ hx]; exact h
    | some rid =>
      rw [mriStep_eq_some _ _ _ hx]
      by_cases hk : rid ∈ acc.2
      · simpa [hk] using h
      · intro k
        simp only [if_neg hk, List.mem_cons, List.filterMap_append, List.mem_append,
          List.filterMap_cons, hx]
        rw [h k]
        simp [or_comm]

theorem mri_nodup (xs : List JVal) (acc : List JVal × List String)
    (hn : (acc.1.filterMap entryId).Nodup)
    (h : ∀ k, k ∈ acc.2 ↔ k ∈ acc.1.filterMap entryId) :
    ((xs.foldl mriStep acc).1.filterMap entryId).Nodup := by
  induction xs generalizing acc with
  | nil => exact hn
  | cons x xs ih =>
    simp only [List.foldl_cons]
    cases hx : entryId x with
    | none => rw [mriStep_eq_none _ _ hx]; exact ih acc hn h
    | some rid =>
      rw [mriStep_eq_some _ _ _ hx]
      by_cases hk : rid ∈ acc.2
      · rw [if_pos hk]; exact ih acc hn h
      · rw [if_neg hk]
        apply ih
        · simp only [List.filterMap_append, List.filterMap_cons, hx,
            List.filterMap_nil]
          rw [List.nodup_append]
          refine ⟨hn, by simp, ?_⟩
          intro a ha
          simp only [List.mem_cons, List.not_mem_nil, or_false]
          intro hc
          subst hc
          exact hk ((h _).mpr ha)
        · intro k
          simp only [List.mem_cons, List.filterMap_append, List.mem_append,
            List.filterMap_cons, hx]
          rw [h k]
          simp [or_comm]

theorem mri_valid (xs : List JVal) (acc : List JVal × List String)
    (hv : ∀ it ∈ acc.1, (entryId it).isSome) :
    ∀ it ∈ (xs.foldl mriStep acc).1, (entryId it).isSome := by
  induction xs generalizing acc with
  | nil => exact hv
  | cons x xs ih =>
    simp only [List.foldl_cons]
    apply ih
    cases hx : entryId x with
    | none => rw [mriStep_eq_none _ _ hx]; exact hv
    | some rid =>
      rw [mriStep_eq_some _ _ _ hx]
      by_cases hk : rid ∈ acc.2
      · simpa [hk] using hv
      · intro it hit
        simp only [if_neg hk, List.mem_append, List.mem_singleton] at hit
        rcases hit with hit | hit
        · exact hv it hit
        · subst hit; simp [hx]

theorem mri_keep_all (M : List JVal) (acc : List JVal × List String)
    (hn : (M.filterMap entryId).Nodup)
    (hv : ∀ it ∈ M, (entryId it).isSome)
    (hfresh : ∀ it ∈ M, ∀ rid, entryId it = some rid → rid ∉ acc.2) :
    (M.foldl mriStep acc).1 = acc.1 ++ M := by
  induction M generalizing acc with
  | nil => simp
  | cons x xs ih =>
    simp only [List.foldl_cons]
    obtain ⟨rid, hx⟩ := Option.isSome_iff_exists.mp (hv x (by simp))
    rw [mriStep_eq_some _ _ _ hx, if_neg (hfresh x (by simp) rid hx)]
    rw [ih (acc.1 ++ [x], rid :: acc.2) ?hn ?hv ?hfresh]
    · simp
    case hn =>
      simp only [List.filterMap_cons, hx] at hn
      exact hn.of_cons
    case hv => exact fun it hit => hv it (by simp [hit])
    case hfresh =>
      intro it hit rid' hit'
      simp only [List.mem_cons, not_or]
      constructor
      · intro hc
        subst hc
        simp only [List.filterMap_cons, hx, List.nodup_cons] at hn
        exact hn.1 (List.mem_filterMap.mpr ⟨it, hit, hit'⟩)
      · exact hfresh it (by simp [hit]) rid' hit'

theorem mri_mem_src (xs : List JVal) (acc : List JVal × List String)
    (y : JVal) (h : y ∈ (xs.foldl mriStep acc).1) : y ∈ acc.1 ∨ y ∈ xs := by
  induction xs generalizing acc with
  | nil => exact Or.inl h
  | cons x xs ih =>
    simp only [List.foldl_cons] at h
    rcases ih _ h with h1 | h1
    · cases hx : entryId x with
      | none => rw [mriStep_eq_none _ _ hx] at h1; exact Or.inl h1
      | some rid =>
        rw [mriStep_eq_some _ _ _ hx] at h1
        by_cases hk : rid ∈ acc.2
        · rw [if_pos hk] at h1; exact Or.inl h1
        · rw [if_neg hk] at h1
          simp only [List.mem_append, List.mem_singleton] at h1
          rcases h1 with h1 | h1
          · exact Or.inl h1
          · exact Or.inr (by simp [h1])
    · exact Or.inr (by simp [h1])

theorem mri_nodup_keys (ex inc : List JVal) :
    ((merge_resolution_index_items ex inc).filterMap entryId).Nodup := by
  unfold merge_resolution_index_items
  apply mri_nodup
  · apply mri_nodup <;> simp
  · apply mri_inv
    simp

theorem mri_all_valid (ex inc : List JVal) :
    ∀ it ∈ merge_resolution_index_items ex inc, (entryId it).isSome := by
  unfold merge_resolution_index_items
  apply mri_valid
  apply mri_valid
  simp

theorem mri_idem (ex inc : List JVal) :
    merge_resolution_index_items (merge_resolution_index_items ex inc) inc =
      merge_resolution_index_items ex inc := by
  have hinv0 : ∀ k, k ∈ (([], []) : List JVal × List String).2 ↔
      k ∈ (([], []) : List JVal × List String).1.filterMap entryId := by simp
  have hinvP2 := mri_inv inc _ (mri_inv ex _ hinv0)
  have hnodupM := mri_nodup_keys ex inc
  have hvalidM := mri_all_valid ex inc
  conv_lhs => rw [merge_resolution_index_items]
  set M := merge_resolution_index_items ex inc with hMdef
  have hkeep : (M.foldl mriStep ([], [])).1 = M := by
    have := mri_keep_all M ([], []) hnodupM hvalidM (by simp)
    simpa using this
  have hQinv := mri_inv M ([], []) (by simp)
  have hcover : ∀ x ∈ inc, ∀ rid, entryId x = some rid →
      rid ∈ (M.foldl mriStep ([], [])).2 := by
    intro x hx rid hrid
    have h1 : rid ∈ (inc.foldl mriStep (ex.foldl mriStep ([], []))).2 :=
      mri_key_seen inc _ x rid hrid hx
    have h2 : rid ∈ M.filterMap entryId := by
      have := (hinvP2 rid).mp h1
      simpa [merge_resolution_index_items, ← hMdef] using this
    rw [hQinv, hkeep]
    exact h2
  rw [mri_skip_all inc _ hcover, hkeep]

/-! ### Idempotence of the index merge -/

theorem lookupKey_ocons_self (k : String) (v : JVal) (fs : JObj) :
    (JObj.ocons k v fs).lookupKey k = some v := by
  simp [JObj.lookupKey]

theorem lookupKey_ocons_ne (k k' : String) (v : JVal) (fs : JObj)
    (h : k ≠ k') : (JObj.ocons k v fs).lookupKey k' = fs.lookupKey k' := by
  simp [JObj.lookupKey, h]

theorem getD_ocons_self (k : String) (v d : JVal) (fs : JObj) :
    (JObj.ocons k v fs).getD k d = v := by
  simp [JObj.getD, lookupKey_ocons_self]

theorem getD_ocons_ne (k k' : String) (v d : JVal) (fs : JObj)
    (h : k ≠ k') : (JObj.ocons k v fs).getD k' d = fs.getD k' d := by
  simp [JObj.getD, lookupKey_ocons_ne _ _ _ _ h]

theorem getD_absorb (o : JObj) (k : String) (d : JVal) :
    o.getD k (o.getD k d) = o.getD k d := by
  cases h : o.lookupKey k <;> simp [JObj.getD, h]

theorem envMerge_idem (o n : JVal) : envMerge (envMerge o n) n = envMerge o n := by
  simp only [envMerge, JVal.isObjB, JVal.objFieldsD, if_true]
  simp [getD_ocons_self, getD_ocons_ne, getD_absorb, ulm_idem]

theorem mergeIndex_idem (S D : JObj) :
    mergeIndex (mergeIndex S D) D = mergeIndex S D := by
  set M := mergeIndex S D with hM
  have hP : M.getD "project" .jnull = D.getD "project" (S.getD "project" .jnull) := by
    simp [JObj.getD, hM, lookup_merge_project S D]
  have hC : M.getD "current_state" .jnull =
      D.getD "current_state" (S.getD "current_state" .jnull) := by
    simp [JObj.getD, hM, lookup_merge_current_state S D]
  have hN : M.getD "next_actions" .jnull =
      D.getD "next_actions" (S.getD "next_actions" .jnull) := by
    simp [JObj.getD, hM, lookup_merge_next_actions S D]
  have hG : M.getD "goals" (.jarr .lnil) = .jarr (JList.ofList
      (unique_list_merge (S.getD "goals" (.jarr .lnil))
        (D.getD "goals" (.jarr .lnil)))) := by
    simp [JObj.getD, hM, lookup_merge_goals S D]
  have hCo : M.getD "constraints" (.jarr .lnil) = .jarr (JList.ofList
      (unique_list_merge (S.getD "constraints" (.jarr .lnil))
        (D.getD "constraints" (.jarr .lnil)))) := by
    simp [JObj.getD, hM, lookup_merge_constraints S D]
  have hV : M.getD "verified_facts" (.jarr .lnil) = .jarr (JList.ofList
      (unique_list_merge (S.getD "verified_facts" (.jarr .lnil))
        (D.getD "verified_facts" (.jarr .lnil)))) := by
    simp [JObj.getD, hM, lookup_merge_verified_facts S D]
  have hE : M.getD "environment" .jnull =
      envMerge (S.getD "environment" .jnull) (D.getD "environment" .jnull) := by
    simp [JObj.getD, hM, lookup_merge_environment S D]
  have e1 : M.setKey "project" (D.getD "project" (M.getD "project" .jnull)) = M := by
    rw [hP, getD_absorb]
    exact setKey_eq_of_lookup _ _ _ (hM ▸ lookup_merge_project S D)
  have e2 : M.setKey "current_state"
      (D.getD "current_state" (M.getD "current_state" .jnull)) = M := by
    rw [hC, getD_absorb]
    exact setKey_eq_of_lookup _ _ _ (hM ▸ lookup_merge_current_state S D)
  have e3 : M.setKey "next_actions"
      (D.getD "next_actions" (M.getD "next_actions" .jnull)) = M := by
    rw [hN, getD_absorb]
    exact setKey_eq_of_lookup _ _ _ (hM ▸ lookup_merge_next_actions S D)
  have e4 : M.setKey "goals" (.jarr (JList.ofList (unique_list_merge
      (M.getD "goals" (.jarr .lnil)) (D.getD "goals" (.jarr .lnil))))) = M := by
    rw [hG, ulm_idem]
    exact setKey_eq_of_lookup _ _ _ (hM ▸ lookup_merge_goals S D)
  have e5 : M.setKey "constraints" (.jarr (JList.ofList (unique_list_merge
      (M.getD "constraints" (.jarr .lnil))
      (D.getD "constraints" (.jarr .lnil))))) = M := by
    rw [hCo, ulm_idem]
    exact setKey_eq_of_lookup _ _ _ (hM ▸ lookup_merge_constraints S D)
  have e6 : M.setKey "verified_facts" (.jarr (JList.ofList (unique_list_merge
      (M.getD "verified_facts" (.jarr .lnil))
      (D.getD "verified_facts" (.jarr .lnil))))) = M := by
    rw [hV, ulm_idem]
    exact setKey_eq_of_lookup _ _ _ (hM ▸ lookup_merge_verified_facts S D)
  have e7 : M.setKey "environment"
      (envMerge (M.getD "environment" .jnull) (D.getD "environment" .jnull)) = M := by
    rw [hE, envMerge_idem]
    exact setKey_eq_of_lookup _ _ _ (hM ▸ lookup_merge_environment S D)
  have hDet : M.lookupKey "detail_index" =
      some (.jobj (((S.getD "detail_index" .jnull).objFieldsD).setKey "resolutions"
        (.jarr (JList.ofList (merge_resolution_index_items
          (resItemsOf S) (resItemsOf D)))))) := hM ▸ lookup_merge_detail S D
  have hDfs : (M.getD "detail_index" .jnull).objFieldsD =
      ((S.getD "detail_index" .jnull).objFieldsD).setKey "resolutions"
        (.jarr (JList.ofList (merge_resolution_index_items
          (resItemsOf S) (resItemsOf D)))) := by
    simp [JObj.getD, hDet, JVal.objFieldsD]
  have hRes : ((M.getD "detail_index" (.jobj .onil)).objFieldsD.getD "resolutions"
      (.jarr .lnil)).arrItemsD =
      merge_resolution_index_items (resItemsOf S) (resItemsOf D) := by
    simp [JObj.getD, hDet, JVal.objFieldsD, getD_setKey_self,
      lookupKey_setKey_self, JVal.arrItemsD, toList_ofList]
  have e8 : M.setKey "detail_index"
      (.jobj (((M.getD "detail_index" .jnull).objFieldsD).setKey "resolutions"
        (.jarr (JList.ofList (merge_resolution_index_items
          (((M.getD "detail_index" (.jobj .onil)).objFieldsD.getD "resolutions"
            (.jarr .lnil)).arrItemsD)
          (((D.getD "detail_index" (.jobj .onil)).objFieldsD.getD "resolutions"
            (.jarr .lnil)).arrItemsD)))))) = M := by
    rw [hDfs, hRes]
    have hD2 : ((D.getD "detail_index" (.jobj .onil)).objFieldsD.getD "resolutions"
        (.jarr .lnil)).arrItemsD = resItemsOf D := rfl
    rw [hD2, mri_idem, setKey_setKey_self]
    exact setKey_eq_of_lookup _ _ _ hDet
  conv_lhs => rw [mergeIndex]
  rw [e1, e2, e3, e4, e5, e6, e7]
  exact e8

/-! ### Lemmas about `normalize_index` -/

theorem getD_setDefaultKey_ne (o : JObj) (k k' : String) (v d : JVal)
    (h : k ≠ k') : (o.setDefaultKey k v).getD k' d = o.getD k' d := by
  simp [JObj.getD, lookupKey_setDefaultKey_ne _ _ _ _ h]

theorem isArrB_eq_true_iff (v : JVal) : v.isArrB = true ↔ ∃ xs, v = .jarr xs := by
  cases v <;> simp [JVal.isArrB]

theorem isObjB_eq_true_iff (v : JVal) : v.isObjB = true ↔ ∃ fs, v = .jobj fs := by
  cases v <;> simp [JVal.isObjB]

theorem norm_lookup_context_version (v : JVal) :
    (normFields v).lookupKey "context_version" =
      some (v.objFieldsD.getD "context_version" (.jstr "v2")) := by
  simp only [normFields]
  rw [lookupKey_setKey_ne _ _ _ _ (by decide)]
  split <;>
    simp [lookupKey_setKey_ne, lookupKey_setDefaultKey_ne,
      lookupKey_setDefaultKey_self, getD_setDefaultKey_ne]

theorem norm_lookup_project (v : JVal) :
    (normFields v).lookupKey "project" =
      some (v.objFieldsD.getD "project" (.jstr "unknown")) := by
  simp only [normFields]
  rw [lookupKey_setKey_ne _ _ _ _ (by decide)]
  split <;>
    simp [lookupKey_setKey_ne, lookupKey_setDefaultKey_ne,
      lookupKey_setDefaultKey_self, getD_setDefaultKey_ne]

theorem norm_lookup_current_state (v : JVal) :
    (normFields v).lookupKey "current_state" =
      some (v.objFieldsD.getD "current_state" (.jstr "")) := by
  simp only [normFields]
  rw [lookupKey_setKey_ne _ _ _ _ (by decide)]
  split <;>
    simp [lookupKey_setKey_ne, lookupKey_setDefaultKey_ne,
      lookupKey_setDefaultKey_self, getD_setDefaultKey_ne]

theorem norm_lookup_goals (v : JVal) :
    (normFields v).lookupKey "goals" =
      some (v.objFieldsD.getD "goals" (.jarr .lnil)) := by
  simp only [normFields]
  rw [lookupKey_setKey_ne _ _ _ _ (by decide)]
  split <;>
    simp [lookupKey_setKey_ne, lookupKey_setDefaultKey_ne,
      lookupKey_setDefaultKey_self, getD_setDefaultKey_ne]

theorem norm_lookup_constraints (v : JVal) :
    (normFields v).lookupKey "constraints" =
      some (v.objFieldsD.getD "constraints" (.jarr .lnil)) := by
  simp only [normFields]
  rw [lookupKey_setKey_ne _ _ _ _ (by decide)]
  split <;>
    simp [lookupKey_setKey_ne, lookupKey_setDefaultKey_ne,
      lookupKey_setDefaultKey_self, getD_setDefaultKey_ne]

theorem norm_lookup_environment (v : JVal) :
    (normFields v).lookupKey "environment" =
      some (v.objFieldsD.getD "environment" emptyEnv) := by
  simp only [normFields]
  rw [lookupKey_setKey_ne _ _ _ _ (by decide)]
  split <;>
    simp [lookupKey_setKey_ne, lookupKey_setDefaultKey_ne,
      lookupKey_setDefaultKey_self, getD_setDefaultKey_ne]

theorem norm_lookup_verified_facts (v : JVal) :
    (normFields v).lookupKey "verified_facts" =
      some (v.objFieldsD.getD "verified_facts" (.jarr .lnil)) := by
  simp only [normFields]
  rw [lookupKey_setKey_ne _ _ _ _ (by decide)]
  split <;>
    simp [lookupKey_setKey_ne, lookupKey_setDefaultKey_ne,
      lookupKey_setDefaultKey_self, getD_setDefaultKey_ne]

theorem norm_lookup_next_actions (v : JVal) :
    (normFields v).lookupKey "next_actions" =
      some (v.objFieldsD.getD "next_actions" (.jarr .lnil)) := by
  simp only [normFields]
  rw [lookupKey_setKey_ne _ _ _ _ (by decide)]
  split <;>
    simp [lookupKey_setKey_ne, lookupKey_setDefaultKey_ne,
      lookupKey_setDefaultKey_self, getD_setDefaultKey_ne]

theorem resolutions_shape (di0 di1 : JObj)
    (h : di1 = di0.setDefaultKey "resolutions" (.jarr .lnil)) :
    ∃ rs, (if (di1.getD "resolutions" .jnull).isArrB then di1
           else di1.setKey "resolutions" (.jarr .lnil)).lookupKey "resolutions"
      = some (.jarr rs) := by
  subst h
  have hself : (di0.setDefaultKey "resolutions" (.jarr .lnil)).lookupKey "resolutions"
      = some (di0.getD "resolutions" (.jarr .lnil)) :=
    lookupKey_setDefaultKey_self _ _ _
  have hgd : (di0.setDefaultKey "resolutions" (.jarr .lnil)).getD "resolutions" .jnull
      = di0.getD "resolutions" (.jarr .lnil) := by
    simp [JObj.getD, hself]
  by_cases harr : ((di0.setDefaultKey "resolutions" (.jarr .lnil)).getD
      "resolutions" .jnull).isArrB
  · rw [if_pos harr]
    rw [hgd] at harr
    obtain ⟨rs, hrs⟩ := (isArrB_eq_true_iff _).mp harr
    exact ⟨rs, by rw [hself, hrs]⟩
  · rw [if_neg harr]
    exact ⟨.lnil, lookupKey_setKey_self _ _ _⟩

theorem norm_detail_shape (v : JVal) :
    ∃ di rs, (normFields v).lookupKey "detail_index" = some (.jobj di) ∧
      di.lookupKey "resolutions" = some (.jarr rs) := by
  simp only [normFields]
  rw [lookupKey_setKey_self]
  obtain ⟨rs, hrs⟩ := resolutions_shape _ _ rfl
  exact ⟨_, rs, rfl, hrs⟩

theorem normFields_fix (M : JObj)
    (h1 : (M.lookupKey "context_version").isSome)
    (h2 : (M.lookupKey "project").isSome)
    (h3 : (M.lookupKey "current_state").isSome)
    (h4 : (M.lookupKey "goals").isSome)
    (h5 : (M.lookupKey "constraints").isSome)
    (h6 : (M.lookupKey "environment").isSome)
    (h7 : (M.lookupKey "verified_facts").isSome)
    (h8 : (M.lookupKey "next_actions").isSome)
    (di : JObj) (rs : JList)
    (hdet : M.lookupKey "detail_index" = some (.jobj di))
    (hres : di.lookupKey "resolutions" = some (.jarr rs)) :
    normFields (.jobj M) = M := by
  obtain ⟨w1, hw1⟩ := Option.isSome_iff_exists.mp h1
  obtain ⟨w2, hw2⟩ := Option.isSome_iff_exists.mp h2
  obtain ⟨w3, hw3⟩ := Option.isSome_iff_exists.mp h3
  obtain ⟨w4, hw4⟩ := Option.isSome_iff_exists.mp h4
  obtain ⟨w5, hw5⟩ := Option.isSome_iff_exists.mp h5
  obtain ⟨w6, hw6⟩ := Option.isSome_iff_exists.mp h6
  obtain ⟨w7, hw7⟩ := Option.isSome_iff_exists.mp h7
  obtain ⟨w8, hw8⟩ := Option.isSome_iff_exists.mp h8
  simp only [normFields, JVal.objFieldsD]
  rw [setDefaultKey_of_lookup_some _ _ _ _ hw1,
    setDefaultKey_of_lookup_some _ _ _ _ hw2,
    setDefaultKey_of_lookup_some _ _ _ _ hw3,
    setDefaultKey_of_lookup_some _ _ _ _ hw4,
    setDefaultKey_of_lookup_some _ _ _ _ hw5,
    setDefaultKey_of_lookup_some _ _ _ _ hw6,
    setDefaultKey_of_lookup_some _ _ _ _ hw7,
    setDefaultKey_of_lookup_some _ _ _ _ hw8,
    setDefaultKey_of_lookup_some _ _ _ _ hdet]
  have hgetdet : M.getD "detail_index" .jnull = .jobj di := by
    simp [JObj.getD, hdet]
  rw [hgetdet]
  simp only [JVal.isObjB, if_true]
  rw [hgetdet]
  simp only [JVal.objFieldsD]
  rw [setDefaultKey_of_lookup_some _ _ _ _ hres]
  have hgetres : di.getD "resolutions" .jnull = .jarr rs := by
    simp [JObj.getD, hres]
  rw [hgetres]
  simp only [JVal.isArrB, if_true]
  exact setKey_eq_of_lookup _ _ _ hdet

theorem lookup_merge_context_version (S D : JObj) :
    (mergeIndex S D).lookupKey "context_version" = S.lookupKey "context_version" := by
  simp [mergeIndex, lookupKey_setKey_ne, getD_setKey_ne]

/-- Claim C1 — Merge idempotence: for every persisted index `S` and every
normalized incoming index `D` (both pass through `normalize_index`, as
`parse_model_output_to_context` guarantees), merging `D` into `S` and then
merging the identical `D` into the result (re-reading and re-normalizing
the persisted merge result, as a second run does) yields the same index as
merging once, under the latest-wins, union-merge and id-keyed merge
policies of the script. -/
theorem merge_idempotent (S0 D0 : JVal) :
    mergeIndex (normFields (.jobj (mergeIndex (normFields S0) (normFields D0))))
      (normFields D0) =
    mergeIndex (normFields S0) (normFields D0) := by
  have hfix : normFields (.jobj (mergeIndex (normFields S0) (normFields D0))) =
      mergeIndex (normFields S0) (normFields D0) := by
    apply normFields_fix
    · rw [lookup_merge_context_version, norm_lookup_context_version]; rfl
    · rw [lookup_merge_project]; rfl
    · rw [lookup_merge_current_state]; rfl
    · rw [lookup_merge_goals]; rfl
    · rw [lookup_merge_constraints]; rfl
    · rw [lookup_merge_environment]; rfl
    · rw [lookup_merge_verified_facts]; rfl
    · rw [lookup_merge_next_actions]; rfl
    · exact lookup_merge_detail _ _
    · exact lookupKey_setKey_self _ _ _
  rw [hfix]
  exact mergeIndex_idem _ _

/-! ### Latest-wins fields (claim C4) -/

/-- Claim C4, counterexample: the persisted index has
`current_state = "working"`; the reply's index block omits
`current_state`, so normalization fills in `""` and the merge overwrites
the persisted value with `""` — the degenerate reply regresses the
persisted value to empty, contrary to the claim. -/
theorem latest_wins_counterexample :
    (mergeIndex (normFields (.jobj (.ocons "current_state" (.jstr "working") .onil)))
      (normFields (.jobj .onil))).lookupKey "current_state" = some (.jstr "") ∧
    JVal.jstr "" ≠ JVal.jstr "working" := by
  constructor
  · decide
  · decide

/-- Claim C4, amended: because the incoming index is normalized before the
merge, `project`, `current_state` and `next_actions` always exist in it,
so the merged value always equals the normalized incoming value (the raw
incoming value when the reply carries the field — third through fifth
conjuncts — and the defaults `"unknown"`/`""`/`[]` otherwise); the
persisted value is never retained, and a degenerate reply does regress
these fields to the defaults. -/
theorem latest_wins_amended (S0 D0 : JVal) :
    ((mergeIndex (normFields S0) (normFields D0)).lookupKey "project" =
      (normFields D0).lookupKey "project") ∧
    ((mergeIndex (normFields S0) (normFields D0)).lookupKey "current_state" =
      (normFields D0).lookupKey "current_state") ∧
    ((mergeIndex (normFields S0) (normFields D0)).lookupKey "next_actions" =
      (normFields D0).lookupKey "next_actions") ∧
    (∀ w, D0.objFieldsD.lookupKey "project" = some w →
      (normFields D0).lookupKey "project" = some w) ∧
    (∀ w, D0.objFieldsD.lookupKey "current_state" = some w →
      (normFields D0).lookupKey "current_state" = some w) ∧
    (∀ w, D0.objFieldsD.lookupKey "next_actions" = some w →
      (normFields D0).lookupKey "next_actions" = some w) := by
  refine ⟨?_, ?_, ?_, ?_, ?_, ?_⟩
  · rw [lookup_merge_project, norm_lookup_project]
    simp [JObj.getD, norm_lookup_project]
  · rw [lookup_merge_current_state, norm_lookup_current_state]
    simp [JObj.getD, norm_lookup_current_state]
  · rw [lookup_merge_next_actions, norm_lookup_next_actions]
    simp [JObj.getD, norm_lookup_next_actions]
  · intro w hw
    rw [norm_lookup_project]
    simp [JObj.getD, hw]
  · intro w hw
    rw [norm_lookup_current_state]
    simp [JObj.getD, hw]
  · intro w hw
    rw [norm_lookup_next_actions]
    simp [JObj.getD, hw]

/-- Witness for the amended claim C4 at a concrete input: a reply that
does carry `current_state` wins over the persisted value. -/
theorem latest_wins_amended_witness :
    ((mergeIndex (normFields (.jobj (.ocons "current_state" (.jstr "old") .onil)))
      (normFields (.jobj (.ocons "current_state" (.jstr "new") .onil)))).lookupKey
        "current_state" =
      (normFields (.jobj (.ocons "current_state" (.jstr "new") .onil))).lookupKey
        "current_state") ∧
    (normFields (.jobj (.ocons "current_state" (.jstr "new") .onil))).lookupKey
      "current_state" = some (.jstr "new") :=
  ⟨(latest_wins_amended (.jobj (.ocons "current_state" (.jstr "old") .onil))
      (.jobj (.ocons "current_state" (.jstr "new") .onil))).2.1,
    (latest_wins_amended (.jobj (.ocons "current_state" (.jstr "old") .onil))
      (.jobj (.ocons "current_state" (.jstr "new") .onil))).2.2.2.2.1
      (.jstr "new") (by decide)⟩

/-! ### Normalization totality (claim C5) -/

/-- Claim C5, counterexample: a present-but-malformed `environment` (here
the string `"linux"`) is not replaced by the canonical empty shape —
`normalize_index` only applies `setdefault`, so the malformed value
survives, contrary to the claim's "including when a required field is
present but malformed". -/
theorem normalize_totality_counterexample :
    (normFields (.jobj (.ocons "environment" (.jstr "linux") .onil))).lookupKey
      "environment" = some (.jstr "linux") ∧
    (JVal.jstr "linux").isObjB = false := by
  constructor
  · decide
  · decide

/-- Claim C5, amended: for every decoded JSON value, `normalize_index`
returns an object in which every required field exists; a field that was
absent (in particular whenever the input is not an object) is filled with
its type-correct default, but a present field keeps its original value
even when malformed — except `detail_index`, which is forced to be an
object whose `resolutions` is a list. -/
theorem normalize_totality_amended (v : JVal) :
    ((normFields v).lookupKey "context_version" =
      some (v.objFieldsD.getD "context_version" (.jstr "v2"))) ∧
    ((normFields v).lookupKey "project" =
      some (v.objFieldsD.getD "project" (.jstr "unknown"))) ∧
    ((normFields v).lookupKey "current_state" =
      some (v.objFieldsD.getD "current_state" (.jstr ""))) ∧
    ((normFields v).lookupKey "goals" =
      some (v.objFieldsD.getD "goals" (.jarr .lnil))) ∧
    ((normFields v).lookupKey "constraints" =
      some (v.objFieldsD.getD "constraints" (.jarr .lnil))) ∧
    ((normFields v).lookupKey "environment" =
      some (v.objFieldsD.getD "environment" emptyEnv)) ∧
    ((normFields v).lookupKey "verified_facts" =
      some (v.objFieldsD.getD "verified_facts" (.jarr .lnil))) ∧
    ((normFields v).lookupKey "next_actions" =
      some (v.objFieldsD.getD "next_actions" (.jarr .lnil))) ∧
    (∃ di rs, (normFields v).lookupKey "detail_index" = some (.jobj di) ∧
      di.lookupKey "resolutions" = some (.jarr rs)) :=
  ⟨norm_lookup_context_version v, norm_lookup_project v,
    norm_lookup_current_state v, norm_lookup_goals v, norm_lookup_constraints v,
    norm_lookup_environment v, norm_lookup_verified_facts v,
    norm_lookup_next_actions v, norm_detail_shape v⟩

/-! ### NDJSON id validation (claim C6) -/

theorem processLine_ok_iff (st : RunSt) (line : JVal) :
    (∃ st', processLine st line = .ok st') ↔ lineIdOk line = true := by
  cases line <;> simp [processLine, lineIdOk]
  case jobj fs =>
    cases h : fs.lookupKey "id" with
    | none => simp
    | some v =>
      cases v <;> simp
      case jstr s =>
        by_cases hs : pyStartsWith s "res-"
        · simp only [hs, if_true, iff_true]
          split <;> exact ⟨_, rfl⟩
        · simp [hs]

theorem processLines_ok_iff (st : RunSt) (lines : List JVal) :
    (processLines st lines).2 = none ↔ ∀ l ∈ lines, lineIdOk l = true := by
  induction lines generalizing st with
  | nil => simp [processLines]
  | cons l ls ih =>
    by_cases hl : lineIdOk l = true
    · obtain ⟨st', hst'⟩ := (processLine_ok_iff st l).mpr hl
      simp only [processLines, hst']
      rw [ih st']
      constructor
      · intro hall y hy
        rcases List.mem_cons.mp hy with hy | hy
        · subst hy; exact hl
        · exact hall y hy
      · intro hall y hy
        exact hall y (by simp [hy])
    · cases he : processLine st l with
      | ok st' => exact absurd ((processLine_ok_iff st l).mp ⟨st', he⟩) hl
      | error e =>
        have hfalse : ¬∀ y ∈ l :: ls, lineIdOk y = true :=
          fun hall => hl (hall l (by simp))
        simp only [processLines, he]
        simp [hfalse]
        exact fun hc => absurd hc hl

theorem processLine_ok_persists (st : RunSt) (line : JVal) (st' : RunSt)
    (h : processLine st line = .ok st') :
    ∃ rid, st'.written = st.written ++ [rid] ∧ (st'.disk.lookupKey rid).isSome := by
  cases line
  case jobj fs =>
    simp only [processLine] at h
    cases hid : fs.lookupKey "id" with
    | none => rw [hid] at h; exact absurd h (by simp)
    | some v =>
      rw [hid] at h
      cases v
      case jstr s =>
        dsimp only at h
        by_cases hs : pyStartsWith s "res-"
        · rw [if_pos hs] at h
          split at h
          · cases h
            exact ⟨(allocate_next_res_id st.disk.keyList st.reserved).1, rfl,
              by simp [lookupKey_setKey_self]⟩
          · cases h
            exact ⟨s, rfl, by simp [lookupKey_setKey_self]⟩
        · rw [if_neg hs] at h
          exact absurd h (by simp)
      all_goals simp at h
  all_goals simp [processLine] at h

/-- Claim C6, counterexample: the code validates only the literal prefix
`res-`, not the full `res-NNN` shape.  The id `"res-oops"` does not match
the specified shape, yet the run accepts the line, persists it under that
id, and succeeds — where the claim requires an abort. -/
theorem ndjson_id_validation_counterexample :
    specResIdShape "res-oops" = false ∧
    (processLines ⟨.onil, [], [], []⟩
      [.jobj (.ocons "id" (.jstr "res-oops") .onil)]).2 = none ∧
    ((processLines ⟨.onil, [], [], []⟩
      [.jobj (.ocons "id" (.jstr "res-oops") .onil)]).1.disk.lookupKey
        "res-oops").isSome = true := by
  refine ⟨by decide, by decide, by decide⟩

/-- Claim C6, amended: a decoded NDJSON line is accepted if and only if it
is an object whose `id` field is a string starting with the literal
prefix `res-` (not the full `res-NNN` digit shape the claim states); the
run succeeds exactly when every line passes this check, and an accepted
line is persisted (its id is appended to the written list with a record
present in the store). -/
theorem ndjson_id_validation_amended :
    (∀ st line, (∃ st', processLine st line = .ok st') ↔ lineIdOk line = true) ∧
    (∀ st lines, (processLines st lines).2 = none ↔
      ∀ l ∈ lines, lineIdOk l = true) ∧
    (∀ st line st', processLine st line = .ok st' →
      ∃ rid, st'.written = st.written ++ [rid] ∧
        (st'.disk.lookupKey rid).isSome) :=
  ⟨processLine_ok_iff, processLines_ok_iff, processLine_ok_persists⟩

/-- Witness for the amended claim C6 at a concrete input. -/
theorem ndjson_id_validation_amended_witness :
    ((processLines ⟨.onil, [], [], []⟩
      [.jobj (.ocons "id" (.jstr "res-001") .onil)]).2 = none ↔
      ∀ l ∈ [JVal.jobj (.ocons "id" (.jstr "res-001") .onil)],
        lineIdOk l = true) ∧
    (processLines ⟨.onil, [], [], []⟩
      [.jobj (.ocons "id" (.jstr "res-001") .onil)]).2 = none :=
  ⟨ndjson_id_validation_amended.2.1 _ _,
    (ndjson_id_validation_amended.2.1 _ _).mpr (by decide)⟩

/-! ### Atomicity on malformed replies (claim C7) -/

/-- Claim C7 — Atomicity on malformed reply: when the reply text does not
contain the index-document block immediately followed by the NDJSON block
(each opened and closed by its literal marker, with only whitespace
between the blocks), the run fails with a parse error, no resolution file
is written (the store is returned unchanged) and the index is not
written. -/
theorem malformed_reply_atomicity (text : List Char) (disk0 : JObj)
    (existing0 : Option JVal) (decodedIndex : JVal) (decodedLines : List JVal)
    (h : hasFileBlocks text = false) :
    parse_model_output_to_context text disk0 existing0 decodedIndex decodedLines
      = ⟨disk0, none, some .parseFmt⟩ := by
  simp [parse_model_output_to_context, h]

/-- Witness for claim C7: the spec's own scenario — a reply whose NDJSON
block lacks its closing marker — fails the gate and leaves the store
untouched. -/
theorem malformed_reply_atomicity_witness :
    hasFileBlocks
      ("===FILE:index.json=== {} ===END_FILE=== ===FILE:resolutions.ndjson=== x".data)
      = false ∧
    parse_model_output_to_context
      ("===FILE:index.json=== {} ===END_FILE=== ===FILE:resolutions.ndjson=== x".data)
      (.ocons "res-001" .jnull .onil) none .jnull [] =
      ⟨.ocons "res-001" .jnull .onil, none, some .parseFmt⟩ :=
  ⟨by decide, malformed_reply_atomicity _ _ _ _ _ (by decide)⟩

/-! ### Merge tolerates ill-typed fields (claim C10) -/

theorem ulmPass_not_arr (acc : List JVal × List (List Char)) (v : JVal)
    (h : v.isArrB = false) : ulmPass acc v = acc := by
  cases v <;> simp [ulmPass] <;> simp [JVal.isArrB] at h

theorem ulmPass_mem_src (acc : List JVal × List (List Char)) (v : JVal)
    (y : JVal) (h : y ∈ (ulmPass acc v).1) : y ∈ acc.1 ∨ y ∈ jItems v := by
  cases v <;> simp only [ulmPass] at h <;> try exact Or.inl h
  case jarr xs =>
    rcases ulm_mem_src _ _ _ h with h1 | h1
    · exact Or.inl h1
    · exact Or.inr (by simpa [jItems, JVal.arrItemsD] using h1)

/-- Claim C10 — merge tolerates ill-typed persisted fields:
`unique_list_merge` is total over arbitrary values; a non-list argument
contributes nothing (it behaves as the empty list, so two non-lists merge
to the empty result); a value that `json.dumps` cannot serialize is keyed
by its string form, so duplicates of it are still deduplicated; and every
element of the result comes from one of the (list-typed) arguments — a
wrongly-typed field is silently discarded, never an error. -/
theorem merge_tolerates_ill_typed :
    (∀ a b : JVal, a.isArrB = false →
      unique_list_merge a b = unique_list_merge (.jarr .lnil) b) ∧
    (∀ a b : JVal, b.isArrB = false →
      unique_list_merge a b = unique_list_merge a (.jarr .lnil)) ∧
    (∀ a b : JVal, a.isArrB = false → b.isArrB = false →
      unique_list_merge a b = []) ∧
    (∀ s, dumpsV (.jraw s) = none ∧ mergeKey (.jraw s) = pyStrTop (.jraw s)) ∧
    (∀ s, unique_list_merge
      (.jarr (.lcons (.jraw s) (.lcons (.jraw s) .lnil)))
      (.jarr (.lcons (.jraw s) .lnil)) = [.jraw s]) ∧
    (∀ (a b y : JVal), y ∈ unique_list_merge a b →
      y ∈ jItems a ∨ y ∈ jItems b) := by
  refine ⟨?_, ?_, ?_, ?_, ?_, ?_⟩
  · intro a b h
    unfold unique_list_merge
    rw [show ulmPass ([], []) a = ([], []) from ulmPass_not_arr _ a h]
    rfl
  · intro a b h
    unfold unique_list_merge
    rw [show ulmPass (ulmPass ([], []) a) b = ulmPass ([], []) a from
      ulmPass_not_arr _ b h]
    rfl
  · intro a b ha hb
    unfold unique_list_merge
    rw [show ulmPass ([], []) a = ([], []) from ulmPass_not_arr _ a ha]
    rw [show ulmPass ([], []) b = ([], []) from ulmPass_not_arr _ b hb]
  · intro s
    exact ⟨rfl, rfl⟩
  · intro s
    simp [unique_list_merge, ulmPass, JList.toList, ulmStep, mergeKey, dumpsV,
      pyStrTop, pyReprV]
  · intro a b y h
    unfold unique_list_merge at h
    rcases ulmPass_mem_src _ _ _ h with h1 | h1
    · rcases ulmPass_mem_src _ _ _ h1 with h2 | h2
      · simp at h2
      · exact Or.inl h2
    · exact Or.inr h1

/-- Witness for claim C10: a string stored where a list belongs merges as
the empty list, without an error. -/
theorem merge_tolerates_ill_typed_witness :
    ((JVal.jstr "oops").isArrB = false) ∧
    unique_list_merge (.jstr "oops") (.jarr (.lcons (.jstr "g") .lnil)) =
      unique_list_merge (.jarr .lnil) (.jarr (.lcons (.jstr "g") .lnil)) :=
  ⟨by decide, merge_tolerates_ill_typed.1 (.jstr "oops")
    (.jarr (.lcons (.jstr "g") .lnil)) (by decide)⟩

/-! ### Union-merge structure (claim C8) -/

theorem ulm_prev_leading (a b : JVal) :
    ∃ ext, unique_list_merge a b = unique_list_merge a (.jarr .lnil) ++ ext ∧
      ∀ y ∈ ext, y ∈ jItems b ∧ ∀ x ∈ jItems a, mergeKey x ≠ mergeKey y := by
  by_cases harr : b.isArrB = true
  · obtain ⟨xs, rfl⟩ := (isArrB_eq_true_iff b).mp harr
    obtain ⟨ext, he, hall⟩ := ulm_out_grow xs.toList (ulmPass ([], []) a)
    refine ⟨ext, ?_, ?_⟩
    · show (ulmPass (ulmPass ([], []) a) (.jarr xs)).1 =
        (ulmPass (ulmPass ([], []) a) (.jarr .lnil)).1 ++ ext
      simpa [ulmPass] using he
    · intro y hy
      refine ⟨(hall y hy).1, ?_⟩
      intro x hx hk
      exact (hall y hy).2 (hk ▸ ulmPass_key_seen a ([], []) x hx)
  · have harr' : b.isArrB = false := by simpa using harr
    refine ⟨[], ?_, by simp⟩
    show (ulmPass (ulmPass ([], []) a) b).1 = _ ++ ([] : List JVal)
    rw [show ulmPass (ulmPass ([], []) a) b = ulmPass ([], []) a from
      ulmPass_not_arr _ b harr']
    simp
    rfl

theorem ulm_superset (a b x : JVal) (hx : x ∈ jItems a) :
    ∃ y ∈ unique_list_merge a b, mergeKey y = mergeKey x := by
  have h1 : mergeKey x ∈ (ulmPass ([], []) a).2 := ulmPass_key_seen a _ x hx
  have hinv := ulmPass_inv a ([], []) (by simp)
  have h2 : mergeKey x ∈ (ulmPass ([], []) a).1.map mergeKey := (hinv _).mp h1
  obtain ⟨y, hy, hk⟩ := List.mem_map.mp h2
  have hgrow : ∃ ext, unique_list_merge a b = (ulmPass ([], []) a).1 ++ ext := by
    by_cases harr : b.isArrB = true
    · obtain ⟨xs, rfl⟩ := (isArrB_eq_true_iff b).mp harr
      obtain ⟨ext, he, _⟩ := ulm_out_grow xs.toList (ulmPass ([], []) a)
      exact ⟨ext, by simpa [unique_list_merge, ulmPass] using he⟩
    · refine ⟨[], ?_⟩
      show (ulmPass (ulmPass ([], []) a) b).1 = _ ++ ([] : List JVal)
      rw [show ulmPass (ulmPass ([], []) a) b = ulmPass ([], []) a from
        ulmPass_not_arr _ b (by simpa using harr)]
      simp
  obtain ⟨ext, he⟩ := hgrow
  exact ⟨y, by rw [he]; exact List.mem_append_left _ hy, hk⟩

theorem envMerge_tools (o n : JVal) :
    (envMerge o n).objFieldsD.lookupKey "tools" =
      some (.jarr (JList.ofList (unique_list_merge
        ((if o.isObjB then o.objFieldsD else .onil).getD "tools" (.jarr .lnil))
        ((if n.isObjB then n.objFieldsD else .onil).getD "tools" (.jarr .lnil))))) := by
  simp [envMerge, JVal.objFieldsD, JObj.lookupKey]

theorem envMerge_paths (o n : JVal) :
    (envMerge o n).objFieldsD.lookupKey "paths" =
      some (.jarr (JList.ofList (unique_list_merge
        ((if o.isObjB then o.objFieldsD else .onil).getD "paths" (.jarr .lnil))
        ((if n.isObjB then n.objFieldsD else .onil).getD "paths" (.jarr .lnil))))) := by
  simp [envMerge, JVal.objFieldsD, JObj.lookupKey]

/-- Claim C8 — Union-merge order, deduplication and monotonicity: the
merged list is the deduplicated previous entries (first-seen order)
followed by exactly those incoming entries whose canonical serialized
form (`mergeKey`) matches no previous entry; the result carries no two
entries with the same canonical form; every previous entry is represented
in the result (superset by structural equality); and `goals`,
`constraints`, `verified_facts`, `environment.tools` and
`environment.paths` of the merged index are exactly such union-merges of
the previous and incoming values. -/
theorem union_merge_structure :
    (∀ a b : JVal, ∃ ext,
      unique_list_merge a b = unique_list_merge a (.jarr .lnil) ++ ext ∧
      ∀ y ∈ ext, y ∈ jItems b ∧ ∀ x ∈ jItems a, mergeKey x ≠ mergeKey y) ∧
    (∀ a b : JVal, ((unique_list_merge a b).map mergeKey).Nodup) ∧
    (∀ a b x : JVal, x ∈ jItems a →
      ∃ y ∈ unique_list_merge a b, mergeKey y = mergeKey x) ∧
    (∀ S D : JObj,
      (mergeIndex S D).lookupKey "goals" = some (.jarr (JList.ofList
        (unique_list_merge (S.getD "goals" (.jarr .lnil))
          (D.getD "goals" (.jarr .lnil))))) ∧
      (mergeIndex S D).lookupKey "constraints" = some (.jarr (JList.ofList
        (unique_list_merge (S.getD "constraints" (.jarr .lnil))
          (D.getD "constraints" (.jarr .lnil))))) ∧
      (mergeIndex S D).lookupKey "verified_facts" = some (.jarr (JList.ofList
        (unique_list_merge (S.getD "verified_facts" (.jarr .lnil))
          (D.getD "verified_facts" (.jarr .lnil)))))) ∧
    (∀ o n : JVal,
      (envMerge o n).objFieldsD.lookupKey "tools" =
        some (.jarr (JList.ofList (unique_list_merge
          ((if o.isObjB then o.objFieldsD else .onil).getD "tools" (.jarr .lnil))
          ((if n.isObjB then n.objFieldsD else .onil).getD "tools" (.jarr .lnil))))) ∧
      (envMerge o n).objFieldsD.lookupKey "paths" =
        some (.jarr (JList.ofList (unique_list_merge
          ((if o.isObjB then o.objFieldsD else .onil).getD "paths" (.jarr .lnil))
          ((if n.isObjB then n.objFieldsD else .onil).getD "paths" (.jarr .lnil)))))) :=
  ⟨ulm_prev_leading, ulm_nodup_keys, ulm_superset,
    fun S D => ⟨lookup_merge_goals S D, lookup_merge_constraints S D,
      lookup_merge_verified_facts S D⟩,
    fun o n => ⟨envMerge_tools o n, envMerge_paths o n⟩⟩

/-- Witness for claim C8: a concrete previous entry is represented in a
concrete merge result. -/
theorem union_merge_structure_witness :
    (JVal.jstr "g1" ∈ jItems (.jarr (.lcons (.jstr "g1") .lnil))) ∧
    ∃ y ∈ unique_list_merge (.jarr (.lcons (.jstr "g1") .lnil))
      (.jarr (.lcons (.jstr "g2") .lnil)), mergeKey y = mergeKey (.jstr "g1") :=
  ⟨by decide, union_merge_structure.2.2.1
    (.jarr (.lcons (.jstr "g1") .lnil)) (.jarr (.lcons (.jstr "g2") .lnil))
    (.jstr "g1") (by decide)⟩

/-! ### Digest truncation recency (claim C9) -/

theorem lastN_spec (n : Nat) (xs : List (List Char)) :
    (lastN n xs).length ≤ n ∧ ∃ d, xs = d ++ lastN n xs := by
  constructor
  · simp only [lastN, List.length_drop]
    omega
  · exact ⟨xs.take (xs.length - n), (List.take_append_drop _ _).symm⟩

theorem pyLastChars_spec (n : Nat) (h : 0 < n) (s : List Char) :
    (pyLastChars n s).length ≤ n ∧ ∃ p, p ++ pyLastChars n s = s := by
  unfold pyLastChars
  rw [if_neg (by omega)]
  constructor
  · simp only [List.length_drop]
    omega
  · exact ⟨s.take (s.length - n), List.take_append_drop _ _⟩

/-- Claim C9 — Digest truncation recency: the summaries channel
contributes at most its 80 most recent entries and each other channel at
most its 120 most recent entries, each retained block being a suffix of
the full channel (original order, oldest entries dropped); each retained
output block is capped at 20000 characters; and the returned blob is a
suffix of the assembled sectioned text of length at most `max_chars`
(60000 in the caller), i.e. it is truncated from the front so the tail
survives. -/
theorem digest_truncation_recency (events : List JVal) (n : Nat) (h : 0 < n) :
    ((build_session_material events n).length ≤ n ∧
      ∃ p, p ++ build_session_material events n =
        pyStrip (joinNL (assembleMaterial (digestChannels events)))) ∧
    ((lastN 80 (digestChannels events).summaries).length ≤ 80 ∧
      ∃ d, (digestChannels events).summaries =
        d ++ lastN 80 (digestChannels events).summaries) ∧
    ((lastN 120 (digestChannels events).tool_uses).length ≤ 120 ∧
      ∃ d, (digestChannels events).tool_uses =
        d ++ lastN 120 (digestChannels events).tool_uses) ∧
    ((lastN 120 (digestChannels events).tool_stats).length ≤ 120 ∧
      ∃ d, (digestChannels events).tool_stats =
        d ++ lastN 120 (digestChannels events).tool_stats) ∧
    ((lastN 120 (digestChannels events).tool_results).length ≤ 120 ∧
      ∃ d, (digestChannels events).tool_results =
        d ++ lastN 120 (digestChannels events).tool_results) ∧
    ((lastN 120 (digestChannels events).dialogue).length ≤ 120 ∧
      ∃ d, (digestChannels events).dialogue =
        d ++ lastN 120 (digestChannels events).dialogue) ∧
    (∀ blk ∈ lastN 120 (digestChannels events).tool_results,
      (blk.take 20000).length ≤ 20000) := by
  refine ⟨?_, lastN_spec _ _, lastN_spec _ _, lastN_spec _ _, lastN_spec _ _,
    lastN_spec _ _, ?_⟩
  · exact pyLastChars_spec n h _
  · intro blk _
    simp only [List.length_take]
    omega

/-- Witness for claim C9 at a concrete input: one summary event, the
default 60000-character budget. -/
theorem digest_truncation_recency_witness :
    (0 < 60000) ∧
    (build_session_material
      [.jobj (.ocons "type" (.jstr "summary")
        (.ocons "summary" (.jstr "done") .onil))] 60000).length ≤ 60000 :=
  ⟨by decide, (digest_truncation_recency
    [.jobj (.ocons "type" (.jstr "summary")
      (.ocons "summary" (.jstr "done") .onil))] 60000 (by decide)).1.1⟩

/-! ### The allocator scan (claims C2 and C3) -/

theorem digitVal_digitChar (d : Nat) (h : d < 10) :
    digitVal (digitChar d) = d := by
  interval_cases d <;> rfl

theorem parseDec_append_digit (cs : List Char) (c : Char) :
    parseDec (cs ++ [c]) = 10 * parseDec cs + digitVal c := by
  simp [parseDec, List.foldl_append]

theorem parseDec_decChars (fuel n : Nat) (h : n ≤ fuel) :
    parseDec (decChars fuel n) = n := by
  induction fuel generalizing n with
  | zero =>
    have : n = 0 := by omega
    subst this
    rfl
  | succ fuel ih =>
    rw [decChars]
    by_cases hn : n < 10
    · rw [if_pos hn]
      show parseDec ([] ++ [digitChar n]) = n
      rw [parseDec_append_digit]
      simp [parseDec, digitVal_digitChar n hn]
    · rw [if_neg hn]
      rw [parseDec_append_digit]
      rw [ih (n / 10) (by omega)]
      rw [digitVal_digitChar (n % 10) (Nat.mod_lt _ (by omega))]
      omega

theorem parseDec_decN (n : Nat) : parseDec (decN n) = n :=
  parseDec_decChars n n le_rfl

theorem parseDec_replicate_zero (k : Nat) (cs : List Char) :
    parseDec (List.replicate k '0' ++ cs) = parseDec cs := by
  induction k with
  | zero => simp
  | succ k ih =>
    rw [List.replicate_succ, List.cons_append]
    show parseDec (List.replicate k '0' ++ cs) = parseDec cs
    exact ih

theorem parseDec_pad3 (cs : List Char) : parseDec (pad3 cs) = parseDec cs := by
  unfold pad3
  split
  · exact parseDec_replicate_zero _ _
  · rfl

theorem formatResId_inj (a b : Nat) (h : formatResId a = formatResId b) :
    a = b := by
  unfold formatResId at h
  have hdata : "res-".data ++ pad3 (decN a) = "res-".data ++ pad3 (decN b) := by
    have := congrArg String.data h
    simpa using this
  have hpad : pad3 (decN a) = pad3 (decN b) := by
    exact List.append_cancel_left hdata
  have := congrArg parseDec hpad
  rwa [parseDec_pad3, parseDec_pad3, parseDec_decN, parseDec_decN] at this

theorem formatResId_startsWith (n : Nat) :
    pyStartsWith (formatResId n) "res-" = true := by
  show ("res-".data).isPrefixOf (String.mk ("res-".data ++ pad3 (decN n))).data = true
  rw [List.isPrefixOf_iff_prefix]
  exact List.prefix_append _ _

theorem allocScan_none_all_occupied (occ : String → Bool) (start fuel : Nat)
    (h : allocScan occ start fuel = none) :
    ∀ i < fuel, occ (formatResId (start + i)) = true := by
  induction fuel generalizing start with
  | zero => omega
  | succ fuel ih =>
    rw [allocScan] at h
    by_cases hc : occ (formatResId start) = true
    · rw [if_pos hc] at h
      intro i hi
      cases i with
      | zero => simpa using hc
      | succ j =>
        have := ih (start + 1) h j (by omega)
        have harith : start + 1 + j = start + (j + 1) := by omega
        rwa [harith] at this
    · rw [if_neg hc] at h
      exact absurd h (by simp)

theorem allocOccupied_mem (dk rs : List String) (s : String)
    (h : allocOccupied dk rs s = true) : s ∈ dk ++ rs := by
  simp only [allocOccupied, Bool.or_eq_true, decide_eq_true_eq] at h
  rcases h with h | h
  · exact List.mem_append_left _ (List.mem_of_mem_filter h)
  · exact List.mem_append_right _ h

theorem allocScan_isSome (dk rs : List String) :
    (allocScan (allocOccupied dk rs) 1 (allocFuel dk rs)).isSome := by
  by_contra hc
  have hnone : allocScan (allocOccupied dk rs) 1 (allocFuel dk rs) = none := by
    cases h : allocScan (allocOccupied dk rs) 1 (allocFuel dk rs)
    · rfl
    · rw [h] at hc; simp at hc
  have hall := allocScan_none_all_occupied _ _ _ hnone
  set F := allocFuel dk rs with hF
  have hmem : ∀ i : Fin F, formatResId (1 + i.1) ∈ (dk ++ rs).toFinset := by
    intro i
    rw [List.mem_toFinset]
    exact allocOccupied_mem dk rs _ (hall i.1 i.2)
  have hinj : ∀ (i : Fin F), ∀ (j : Fin F),
      formatResId (1 + i.1) = formatResId (1 + j.1) → i = j := by
    intro i j hij
    have := formatResId_inj _ _ hij
    exact Fin.ext (by omega)
  have hcard : F ≤ (dk ++ rs).toFinset.card := by
    have h1 : (Finset.univ : Finset (Fin F)).card ≤ (dk ++ rs).toFinset.card := by
      apply Finset.card_le_card_of_injOn (fun i => formatResId (1 + i.1))
      · intro i _
        exact hmem i
      · intro i _ j _ hij
        exact hinj i j hij
    simpa using h1
  have hlen : (dk ++ rs).toFinset.card ≤ dk.length + rs.length := by
    have := (dk ++ rs).toFinset_card_le
    simpa using this
  rw [hF] at hcard
  unfold allocFuel at hcard
  omega

theorem allocScan_sound (occ : String → Bool) (start fuel n : Nat)
    (h : allocScan occ start fuel = some n) :
    start ≤ n ∧ occ (formatResId n) = false ∧
      ∀ m, start ≤ m → m < n → occ (formatResId m) = true := by
  induction fuel generalizing start with
  | zero => simp [allocScan] at h
  | succ fuel ih =>
    rw [allocScan] at h
    by_cases hc : occ (formatResId start) = true
    · rw [if_pos hc] at h
      obtain ⟨h1, h2, h3⟩ := ih (start + 1) h
      refine ⟨by omega, h2, ?_⟩
      intro m hm1 hm2
      by_cases hm : m = start
      · subst hm; exact hc
      · exact h3 m (by omega) hm2
    · rw [if_neg hc] at h
      have : n = start := by
        have := h
        simp at this
        omega
      subst this
      exact ⟨le_rfl, by simpa using hc, fun m hm1 hm2 => by omega⟩

theorem allocate_spec (dk rs : List String) :
    allocate_next_res_id dk rs =
      (formatResId (allocNum dk rs), formatResId (allocNum dk rs) :: rs) ∧
    1 ≤ allocNum dk rs ∧
    allocOccupied dk rs (formatResId (allocNum dk rs)) = false ∧
    (∀ m, 1 ≤ m → m < allocNum dk rs →
      allocOccupied dk rs (formatResId m) = true) := by
  refine ⟨rfl, ?_⟩
  obtain ⟨n, hn⟩ := Option.isSome_iff_exists.mp (allocScan_isSome dk rs)
  have hnum : allocNum dk rs = n := by
    simp [allocNum, hn]
  obtain ⟨h1, h2, h3⟩ := allocScan_sound _ _ _ _ hn
  rw [hnum]
  exact ⟨h1, by simpa using h2, h3⟩

/-! ### The per-run store invariant (claims C2 and C3) -/

theorem alloc_fresh (disk : JObj) (rs : List String) :
    disk.lookupKey (allocate_next_res_id disk.keyList rs).1 = none ∧
    (allocate_next_res_id disk.keyList rs).1 ∉ rs ∧
    (allocate_next_res_id disk.keyList rs).2 =
      (allocate_next_res_id disk.keyList rs).1 :: rs := by
  obtain ⟨_, _, hocc, _⟩ := allocate_spec disk.keyList rs
  unfold allocOccupied at hocc
  simp only [Bool.or_eq_false_iff, decide_eq_false_iff_not] at hocc
  obtain ⟨hd, hr⟩ := hocc
  have h1 : (allocate_next_res_id disk.keyList rs).1 =
      formatResId (allocNum disk.keyList rs) := rfl
  refine ⟨?_, by rw [h1]; exact hr, rfl⟩
  rw [h1]
  have hsw := formatResId_startsWith (allocNum disk.keyList rs)
  have hmem : formatResId (allocNum disk.keyList rs) ∉ disk.keyList :=
    fun hc => hd (List.mem_filter.mpr ⟨hc, hsw⟩)
  cases hl : disk.lookupKey (formatResId (allocNum disk.keyList rs)) with
  | none => rfl
  | some v =>
    exact absurd ((lookupKey_isSome_iff_mem_keyList _ _).mp (by simp [hl])) hmem

theorem write_step_inv (disk0 : JObj) (st : RunSt) (nid : String) (FS : JObj)
    (remap' : List (String × String)) (rsv' : List String)
    (hinv : RunInv disk0 st)
    (hfresh : st.disk.lookupKey nid = none)
    (hnw : nid ∉ st.written)
    (hFSid : FS.lookupKey "id" = some (.jstr nid))
    (hrsv : ∀ k, k ∈ rsv' ↔ k ∈ nid :: st.reserved)
    (hremap : ∀ p ∈ remap', p ∈ st.remap ∨ (p.2 = nid ∧ p.1 ≠ nid)) :
    RunInv disk0 ⟨st.disk.setKey nid (.jobj FS), remap',
      st.written ++ [nid], rsv'⟩ := by
  obtain ⟨H1, H2, H3, H4, H5, H6, H7, H8⟩ := hinv
  have hd0 : disk0.lookupKey nid = none := by
    cases hl : disk0.lookupKey nid with
    | none => rfl
    | some v =>
      have := H1 nid (by simp [hl])
      rw [hfresh] at this
      rw [hl] at this
      exact absurd this (by simp)
  refine ⟨?_, ?_, ?_, ?_, ?_, ?_, ?_, ?_⟩
  · intro k hk
    have hkne : nid ≠ k := by
      intro hc
      subst hc
      rw [hd0] at hk
      simp at hk
    rw [lookupKey_setKey_ne _ _ _ _ hkne]
    exact H1 k hk
  · intro k
    by_cases hk : nid = k
    · subst hk
      simp [lookupKey_setKey_self]
    · rw [lookupKey_setKey_ne _ _ _ _ hk]
      rw [H2 k]
      simp [List.mem_append, Ne.symm hk]
  · simp only [List.nodup_append, List.nodup_cons, List.nodup_nil]
    exact ⟨H3, by simp, by simpa using fun hc => hnw hc⟩
  · intro k hk
    rcases List.mem_append.mp hk with hk | hk
    · exact H4 k hk
    · simp at hk
      subst hk
      exact hd0
  · intro k hk
    rcases List.mem_append.mp hk with hk | hk
    · have hkne : nid ≠ k := fun hc => hnw (hc ▸ hk)
      obtain ⟨fs, hfs1, hfs2⟩ := H5 k hk
      exact ⟨fs, by rw [lookupKey_setKey_ne _ _ _ _ hkne]; exact hfs1, hfs2⟩
    · simp at hk
      subst hk
      exact ⟨FS, by rw [lookupKey_setKey_self], hFSid⟩
  · intro k
    rw [hrsv k]
    simp only [List.mem_cons, List.mem_append, List.mem_singleton]
    rw [H6 k]
    tauto
  · simp only [List.length_append, List.length_singleton]
    rw [size_setKey_of_absent _ _ _ hfresh, H7]
    omega
  · intro p hp
    rcases hremap p hp with hp1 | hp1
    · obtain ⟨h1, h2⟩ := H8 p hp1
      exact ⟨List.mem_append_left _ h1, h2⟩
    · exact ⟨by simp [hp1.1], fun hc => hp1.2 (by rw [hc, hp1.1])⟩

theorem processLine_inv (disk0 : JObj) (st : RunSt) (line : JVal) (st' : RunSt)
    (hok : processLine st line = .ok st') (hinv : RunInv disk0 st) :
    RunInv disk0 st' ∧ ∃ rid, st'.written = st.written ++ [rid] := by
  cases line
  case jobj fs =>
    simp only [processLine] at hok
    cases hid : fs.lookupKey "id" with
    | none => rw [hid] at hok; exact absurd hok (by simp)
    | some v =>
      rw [hid] at hok
      cases v
      case jstr s =>
        dsimp only at hok
        by_cases hs : pyStartsWith s "res-"
        · rw [if_pos hs] at hok
          by_cases hc : ((st.disk.lookupKey s).isSome || decide (s ∈ st.reserved)) = true
          · rw [if_pos hc] at hok
            have hcp : (st.disk.lookupKey s).isSome = true ∨ s ∈ st.reserved := by
              simpa using hc
            cases hok
            obtain ⟨hfresh, hnres, hres2⟩ := alloc_fresh st.disk st.reserved
            have hnw : (allocate_next_res_id st.disk.keyList st.reserved).1 ∉
                st.written := fun hcw => hnres ((hinv.2.2.2.2.2.1 _).mpr hcw)
            have hneq : s ≠ (allocate_next_res_id st.disk.keyList st.reserved).1 := by
              intro hceq
              rcases hcp with hc1 | hc1
              · rw [hceq] at hc1
                rw [hfresh] at hc1
                simp at hc1
              · exact hnres (hceq ▸ hc1)
            refine ⟨write_step_inv disk0 st _ _ _ _ hinv hfresh hnw
              (lookupKey_setKey_self _ _ _) (by rw [hres2]; intro k; rfl) ?_, _, rfl⟩
            intro p hp
            rcases mem_setStr _ _ _ _ hp with hp1 | hp1
            · exact Or.inl hp1
            · exact Or.inr ⟨by rw [hp1], by rw [hp1]; exact hneq⟩
          · rw [if_neg hc] at hok
            cases hok
            have hcp : ¬((st.disk.lookupKey s).isSome = true ∨ s ∈ st.reserved) := by
              simpa using hc
            push_neg at hcp
            have hfresh : st.disk.lookupKey s = none := by
              simpa using hcp.1
            have hnw : s ∉ st.written :=
              fun hcw => hcp.2 ((hinv.2.2.2.2.2.1 _).mpr hcw)
            exact ⟨write_step_inv disk0 st _ _ _ _ hinv hfresh hnw hid
              (fun k => Iff.rfl) (fun p hp => Or.inl hp), _, rfl⟩
        · rw [if_neg hs] at hok
          exact absurd hok (by simp)
      all_goals simp at hok
  all_goals simp [processLine] at hok

theorem processLines_inv (lines : List JVal) (disk0 : JObj) (st : RunSt)
    (hinv : RunInv disk0 st) :
    RunInv disk0 (processLines st lines).1 ∧
      ∃ ext, (processLines st lines).1.written = st.written ++ ext := by
  induction lines generalizing st with
  | nil => exact ⟨hinv, [], by simp [processLines]⟩
  | cons l ls ih =>
    cases he : processLine st l with
    | ok st1 =>
      simp only [processLines, he]
      obtain ⟨hinv1, rid, hw⟩ := processLine_inv disk0 st l st1 he hinv
      obtain ⟨hinv2, ext, hw2⟩ := ih st1 hinv1
      exact ⟨hinv2, [rid] ++ ext, by rw [hw2, hw]; simp⟩
    | error e =>
      simp only [processLines, he]
      exact ⟨hinv, [], by simp⟩

theorem runInv_init (disk0 : JObj) : RunInv disk0 ⟨disk0, [], [], []⟩ := by
  refine ⟨fun k _ => rfl, fun k => by simp, by simp, by simp, by simp,
    fun k => by simp, by simp, by simp⟩

theorem processLines_written_length (lines : List JVal) (st : RunSt)
    (hok : (processLines st lines).2 = none) :
    (processLines st lines).1.written.length = st.written.length + lines.length := by
  induction lines generalizing st with
  | nil => simp [processLines]
  | cons l ls ih =>
    cases he : processLine st l with
    | ok st1 =>
      simp only [processLines, he] at hok ⊢
      obtain ⟨rid, hw⟩ := processLine_ok_persists st l st1 he
      rw [ih st1 hok, hw.1]
      simp
      omega
    | error e =>
      simp only [processLines, he] at hok
      simp at hok

/-! ### From the run state to the final index (claims C2 and C3) -/

theorem lookupStr_mem (ps : List (String × String)) (k v : String)
    (h : lookupStr ps k = some v) : (k, v) ∈ ps := by
  induction ps with
  | nil => simp [lookupStr] at h
  | cons p ps ih =>
    obtain ⟨a, b⟩ := p
    by_cases ha : a = k
    · subst ha
      simp [lookupStr] at h
      simp [h]
    · simp [lookupStr, ha] at h
      simp [ih h]

theorem entryId_some_iff (it : JVal) (rid : String) :
    entryId it = some rid ↔
      ∃ fs, it = .jobj fs ∧ fs.lookupKey "id" = some (.jstr rid) := by
  cases it <;> simp [entryId]
  case jobj fs =>
    cases h : fs.lookupKey "id" with
    | none => simp
    | some v => cases v <;> simp

theorem entryId_minimalEntry (rid : String) :
    entryId (minimalEntry rid) = some rid := rfl

theorem remapItems_covers (remap : List (String × String)) (items : List JVal)
    (it : JVal) (old nw : String) (hit : it ∈ items)
    (hid : entryId it = some old) (hmap : lookupStr remap old = some nw) :
    ∃ it' ∈ remapItems remap items, entryId it' = some nw := by
  obtain ⟨fs, rfl, hfs⟩ := (entryId_some_iff it old).mp hid
  refine ⟨.jobj (fs.setKey "id" (.jstr nw)), ?_, ?_⟩
  · unfold remapItems
    apply List.mem_map.mpr
    refine ⟨.jobj fs, hit, ?_⟩
    simp [hfs, hmap]
  · rw [entryId_some_iff]
    exact ⟨_, rfl, lookupKey_setKey_self _ _ _⟩

theorem remapItems_id_cases (remap : List (String × String)) (items : List JVal)
    (it' : JVal) (rid : String) (hit' : it' ∈ remapItems remap items)
    (hid : entryId it' = some rid) :
    (∃ old, lookupStr remap old = some rid) ∨
    (∃ it ∈ items, entryId it = some rid ∧ lookupStr remap rid = none) := by
  obtain ⟨it, hit, heq⟩ := List.mem_map.mp hit'
  cases it
  case jobj fs =>
    cases hfs : fs.lookupKey "id" with
    | none =>
      simp only [hfs] at heq
      rw [← heq] at hid
      simp [entryId, hfs] at hid
    | some v =>
      cases v
      case jstr old =>
        simp only [hfs] at heq
        cases hmap : lookupStr remap old with
        | some nw =>
          rw [hmap] at heq
          rw [← heq] at hid
          have : rid = nw := by
            rw [entryId] at hid
            rw [lookupKey_setKey_self] at hid
            simpa using hid.symm
          subst this
          exact Or.inl ⟨old, hmap⟩
        | none =>
          rw [hmap] at heq
          rw [← heq] at hid
          have : rid = old := by
            rw [entryId] at hid
            rw [hfs] at hid
            simpa using hid.symm
          subst this
          exact Or.inr ⟨.jobj fs, hit, by rw [entryId, hfs], hmap⟩
      all_goals
        simp only [hfs] at heq
        rw [← heq] at hid
        simp [entryId, hfs] at hid
  all_goals
    simp only [remapItems] at heq
    rw [← heq] at hid
    simp [entryId] at hid

theorem mri_covers (ex inc : List JVal) (x : JVal) (rid : String)
    (hx : entryId x = some rid) (h : x ∈ ex ∨ x ∈ inc) :
    ∃ e ∈ merge_resolution_index_items ex inc, entryId e = some rid := by
  have hseen : rid ∈ (inc.foldl mriStep (ex.foldl mriStep ([], []))).2 := by
    rcases h with h | h
    · exact mri_seen_mono inc _ rid (mri_key_seen ex _ x rid hx h)
    · exact mri_key_seen inc _ x rid hx h
  have hinv := mri_inv inc (ex.foldl mriStep ([], [])) (mri_inv ex _ (by simp))
  have := (hinv rid).mp hseen
  obtain ⟨e, he, hid⟩ := List.mem_filterMap.mp this
  exact ⟨e, he, hid⟩

theorem resItemsOf_merge (S D : JObj) :
    resItemsOf (mergeIndex S D) =
      merge_resolution_index_items (resItemsOf S) (resItemsOf D) := by
  unfold resItemsOf
  simp only [JObj.getD, lookup_merge_detail S D, Option.getD_some, JVal.objFieldsD,
    lookupKey_setKey_self, JVal.arrItemsD, toList_ofList]
  rfl

theorem resItemsOf_setDetail (fs difs : JObj) (items : List JVal) :
    resItemsOf (fs.setKey "detail_index"
      (.jobj (difs.setKey "resolutions" (.jarr (JList.ofList items))))) = items := by
  unfold resItemsOf
  simp only [JObj.getD, lookupKey_setKey_self, Option.getD_some, JVal.objFieldsD,
    JVal.arrItemsD, toList_ofList]

theorem processLine_remap_mono (st : RunSt) (l : JVal) (st1 : RunSt)
    (he : processLine st l = .ok st1) (rid w : String)
    (h : lookupStr st.remap rid = some w) :
    ∃ w', lookupStr st1.remap rid = some w' := by
  cases l
  case jobj fs =>
    simp only [processLine] at he
    cases hid : fs.lookupKey "id" with
    | none => rw [hid] at he; exact absurd he (by simp)
    | some v =>
      rw [hid] at he
      cases v
      case jstr s =>
        dsimp only at he
        by_cases hs : pyStartsWith s "res-"
        · rw [if_pos hs] at he
          split at he
          · cases he
            by_cases hsk : s = rid
            · subst hsk
              exact ⟨_, lookupStr_set_self _ _ _⟩
            · exact ⟨w, by rw [lookupStr_set_ne _ _ _ _ hsk]; exact h⟩
          · cases he
            exact ⟨w, h⟩
        · rw [if_neg hs] at he
          exact absurd he (by simp)
      all_goals simp at he
  all_goals simp [processLine] at he

theorem processLines_remap_mono (ls : List JVal) (st : RunSt) (rid w : String)
    (h : lookupStr st.remap rid = some w) :
    ∃ w', lookupStr (processLines st ls).1.remap rid = some w' := by
  induction ls generalizing st w with
  | nil => exact ⟨w, h⟩
  | cons l ls ih =>
    cases he : processLine st l with
    | ok st1 =>
      simp only [processLines, he]
      obtain ⟨w', hw'⟩ := processLine_remap_mono st l st1 he rid w h
      exact ih st1 w' hw'
    | error e =>
      simp only [processLines, he]
      exact ⟨w, h⟩

theorem processLines_written_mono (ls : List JVal) (st : RunSt) (k : String)
    (h : k ∈ st.written) : k ∈ (processLines st ls).1.written := by
  induction ls generalizing st with
  | nil => exact h
  | cons l ls ih =>
    cases he : processLine st l with
    | ok st1 =>
      simp only [processLines, he]
      obtain ⟨rid, hw⟩ := processLine_ok_persists st l st1 he
      exact ih st1 (by rw [hw.1]; exact List.mem_append_left _ h)
    | error e =>
      simp only [processLines, he]
      exact h

theorem processLine_declared_head (st : RunSt) (l : JVal) (st1 : RunSt)
    (he : processLine st l = .ok st1) (rid : String)
    (hrid : entryId l = some rid) :
    rid ∈ st1.written ∨ ∃ nw, lookupStr st1.remap rid = some nw := by
  obtain ⟨fs, rfl, hfs⟩ := (entryId_some_iff l rid).mp hrid
  simp only [processLine] at he
  rw [hfs] at he
  dsimp only at he
  by_cases hs : pyStartsWith rid "res-"
  · rw [if_pos hs] at he
    split at he
    · cases he
      exact Or.inr ⟨_, lookupStr_set_self _ _ _⟩
    · cases he
      exact Or.inl (by simp)
  · rw [if_neg hs] at he
    exact absurd he (by simp)

theorem processLines_declared (lines : List JVal) (st : RunSt)
    (hok : (processLines st lines).2 = none) :
    ∀ l ∈ lines, ∀ rid, entryId l = some rid →
      rid ∈ (processLines st lines).1.written ∨
      ∃ nw, lookupStr (processLines st lines).1.remap rid = some nw := by
  induction lines generalizing st with
  | nil => simp
  | cons l ls ih =>
    cases he : processLine st l with
    | ok st1 =>
      simp only [processLines, he] at hok ⊢
      intro y hy rid hrid
      rcases List.mem_cons.mp hy with hy | hy
      · subst hy
        rcases processLine_declared_head st y st1 he rid hrid with h | ⟨nw, hnw⟩
        · exact Or.inl (processLines_written_mono ls st1 rid h)
        · obtain ⟨w', hw'⟩ := processLines_remap_mono ls st1 rid nw hnw
          exact Or.inr ⟨w', hw'⟩
      · exact ih st1 hok y hy rid hrid
    | error e =>
      simp only [processLines, he] at hok
      simp at hok

theorem runArchive_err_eq (disk0 : JObj) (ex : Option JVal) (inc : JVal)
    (lines : List JVal) :
    (runArchive disk0 ex inc lines).err =
      (processLines ⟨disk0, [], [], []⟩ lines).2 := by
  unfold runArchive
  cases h : (processLines ⟨disk0, [], [], []⟩ lines).2 <;> simp [h]

theorem runArchive_disk_eq (disk0 : JObj) (ex : Option JVal) (inc : JVal)
    (lines : List JVal) :
    (runArchive disk0 ex inc lines).disk =
      (processLines ⟨disk0, [], [], []⟩ lines).1.disk := by
  unfold runArchive
  cases h : (processLines ⟨disk0, [], [], []⟩ lines).2 <;> simp [h]

theorem runArchive_index_items (disk0 : JObj) (ex inc : JVal)
    (lines : List JVal)
    (hok : (processLines ⟨disk0, [], [], []⟩ lines).2 = none) :
    ∃ ffs, (runArchive disk0 (some ex) inc lines).indexWritten =
        some (.jobj ffs) ∧
      resItemsOf ffs =
        merge_resolution_index_items (resItemsOf (normFields ex))
          (if (remapItems (processLines ⟨disk0, [], [], []⟩ lines).1.remap
                (resItemsOf (normFields inc))).isEmpty &&
              !(processLines ⟨disk0, [], [], []⟩ lines).1.written.isEmpty then
            (processLines ⟨disk0, [], [], []⟩ lines).1.written.map minimalEntry
          else
            remapItems (processLines ⟨disk0, [], [], []⟩ lines).1.remap
              (resItemsOf (normFields inc))) := by
  unfold runArchive
  simp only [hok]
  refine ⟨_, rfl, ?_⟩
  rw [resItemsOf_merge, resItemsOf_setDetail]
  rfl

/-! ### Collision remap correctness (claim C2) -/

/-- Claim C2 — Collision remap correctness: on every successful run,
every remapped id pair maps a collided declared id to a distinct fresh id
that did not exist on disk before the run and whose persisted record
carries the new id in its own `id` field; pre-existing files are left
untouched; `allocate_next_res_id` returns exactly the lowest-numbered
`res-NNN` id, scanning from 1, that is neither on disk nor reserved in
this run; and every incoming directory entry bearing a collided original
id is represented in the merged index under the new id. -/
theorem collision_remap_correctness (disk0 : JObj) (ex inc : JVal)
    (lines : List JVal)
    (hok : (runArchive disk0 (some ex) inc lines).err = none) :
    (∀ old nw,
      lookupStr (processLines ⟨disk0, [], [], []⟩ lines).1.remap old = some nw →
      old ≠ nw ∧ disk0.lookupKey nw = none ∧
      ∃ fs, (runArchive disk0 (some ex) inc lines).disk.lookupKey nw =
        some (.jobj fs) ∧ fs.lookupKey "id" = some (.jstr nw)) ∧
    (∀ k, (disk0.lookupKey k).isSome →
      (runArchive disk0 (some ex) inc lines).disk.lookupKey k =
        disk0.lookupKey k) ∧
    (∀ dk rs, allocate_next_res_id dk rs =
        (formatResId (allocNum dk rs), formatResId (allocNum dk rs) :: rs) ∧
      1 ≤ allocNum dk rs ∧
      allocOccupied dk rs (formatResId (allocNum dk rs)) = false ∧
      ∀ m, 1 ≤ m → m < allocNum dk rs →
        allocOccupied dk rs (formatResId m) = true) ∧
    (∀ it old nw, it ∈ resItemsOf (normFields inc) → entryId it = some old →
      lookupStr (processLines ⟨disk0, [], [], []⟩ lines).1.remap old = some nw →
      ∃ ffs, (runArchive disk0 (some ex) inc lines).indexWritten =
        some (.jobj ffs) ∧ ∃ e ∈ resItemsOf ffs, entryId e = some nw) := by
  have hplok : (processLines ⟨disk0, [], [], []⟩ lines).2 = none := by
    rw [← runArchive_err_eq disk0 (some ex) inc lines]
    exact hok
  obtain ⟨hinv, -⟩ := processLines_inv lines disk0 _ (runInv_init disk0)
  obtain ⟨H1, H2, H3, H4, H5, H6, H7, H8⟩ := hinv
  refine ⟨?_, ?_, allocate_spec, ?_⟩
  · intro old nw h
    have hmem := lookupStr_mem _ _ _ h
    obtain ⟨hw, hne⟩ := H8 _ hmem
    refine ⟨hne, H4 _ hw, ?_⟩
    obtain ⟨fs, hf1, hf2⟩ := H5 _ hw
    rw [runArchive_disk_eq]
    exact ⟨fs, hf1, hf2⟩
  · intro k hk
    rw [runArchive_disk_eq]
    exact H1 k hk
  · intro it old nw hit hid hmap
    obtain ⟨it', hit', hid'⟩ := remapItems_covers _ _ it old nw hit hid hmap
    obtain ⟨ffs, hffs, hres⟩ := runArchive_index_items disk0 ex inc lines hplok
    refine ⟨ffs, hffs, ?_⟩
    rw [hres]
    have hne1 : (remapItems (processLines ⟨disk0, [], [], []⟩ lines).1.remap
        (resItemsOf (normFields inc))).isEmpty = false := by
      cases hcase : remapItems (processLines ⟨disk0, [], [], []⟩ lines).1.remap
          (resItemsOf (normFields inc)) with
      | nil => rw [hcase] at hit'; simp at hit'
      | cons a l => rfl
    rw [hne1]
    simp only [Bool.false_and]
    rw [if_neg (by simp)]
    exact mri_covers _ _ it' nw hid' (Or.inr hit')

/-- Witness for claim C2: a store holding `res-001`, a reply declaring the
same id; the run succeeds, the remap sends `res-001` to the fresh lowest
id `res-002`, which was not on disk before the run and whose record
carries `res-002` in its own `id` field. -/
theorem collision_remap_correctness_witness :
    (runArchive (.ocons "res-001" (.jobj (.ocons "id" (.jstr "res-001") .onil)) .onil)
      (some (.jobj .onil)) (.jobj .onil)
      [.jobj (.ocons "id" (.jstr "res-001") .onil)]).err = none ∧
    ("res-001" ≠ "res-002" ∧
      (JObj.ocons "res-001" (.jobj (.ocons "id" (.jstr "res-001") .onil))
        .onil).lookupKey "res-002" = none ∧
      ∃ fs, (runArchive
          (.ocons "res-001" (.jobj (.ocons "id" (.jstr "res-001") .onil)) .onil)
          (some (.jobj .onil)) (.jobj .onil)
          [.jobj (.ocons "id" (.jstr "res-001") .onil)]).disk.lookupKey "res-002" =
        some (.jobj fs) ∧ fs.lookupKey "id" = some (.jstr "res-002")) :=
  ⟨by decide,
    (collision_remap_correctness
      (.ocons "res-001" (.jobj (.ocons "id" (.jstr "res-001") .onil)) .onil)
      (.jobj .onil) (.jobj .onil)
      [.jobj (.ocons "id" (.jstr "res-001") .onil)] (by decide)).1
      "res-001" "res-002" (by decide)⟩

/-! ### Id uniqueness and index/store consistency (claim C3) -/

/-- Claim C3, counterexample: a previously persisted (empty) index, an
empty store, a reply whose directory lists `res-999` but whose NDJSON
block is empty.  The run succeeds and the merged index references
`res-999`, yet no persisted record `res-999` exists — a dangling
reference, contrary to the claim. -/
theorem id_consistency_counterexample :
    (runArchive .onil (some (.jobj .onil))
      (.jobj (.ocons "detail_index" (.jobj (.ocons "resolutions"
        (.jarr (.lcons (.jobj (.ocons "id" (.jstr "res-999") .onil)) .lnil))
        .onil)) .onil)) []).err = none ∧
    (∃ e ∈ resItemsOf ((runArchive .onil (some (.jobj .onil))
      (.jobj (.ocons "detail_index" (.jobj (.ocons "resolutions"
        (.jarr (.lcons (.jobj (.ocons "id" (.jstr "res-999") .onil)) .lnil))
        .onil)) .onil)) []).indexWritten.getD .jnull).objFieldsD,
      entryId e = some "res-999") ∧
    ((runArchive .onil (some (.jobj .onil))
      (.jobj (.ocons "detail_index" (.jobj (.ocons "resolutions"
        (.jarr (.lcons (.jobj (.ocons "id" (.jstr "res-999") .onil)) .lnil))
        .onil)) .onil)) []).disk.lookupKey "res-999") = none := by
  refine ⟨by decide, by decide, by decide⟩

theorem indexBackedB_spec (items : List JVal) (disk : JObj)
    (h : indexBackedB items disk = true) (e : JVal) (he : e ∈ items)
    (rid : String) (hrid : entryId e = some rid) :
    (disk.lookupKey rid).isSome := by
  unfold indexBackedB at h
  have hall := List.all_eq_true.mp h e he
  rw [hrid] at hall
  simpa using hall

/-- Claim C3, amended: on every successful run against a previously
persisted index, the written ids are distinct, fresh (no pre-existing
file is overwritten, the store grows by exactly the number of NDJSON
lines), and each written file carries its own id; the merged index's
directory has no duplicate ids; when the reply supplies no directory
entries but records were written, a minimal entry is synthesized for
every written id; and — provided every pre-existing directory entry was
backed by a file and every incoming directory id is either declared by
some NDJSON line or already persisted — the merged index has no id
lacking a persisted record.  (Unconditionally, an incoming directory
entry whose id was never written can dangle; see the counterexample.) -/
theorem id_consistency_amended (disk0 : JObj) (ex inc : JVal)
    (lines : List JVal)
    (hok : (runArchive disk0 (some ex) inc lines).err = none) :
    ((processLines ⟨disk0, [], [], []⟩ lines).1.written.Nodup ∧
      (processLines ⟨disk0, [], [], []⟩ lines).1.written.length = lines.length) ∧
    (∀ k ∈ (processLines ⟨disk0, [], [], []⟩ lines).1.written,
      disk0.lookupKey k = none ∧
      ∃ fs, (runArchive disk0 (some ex) inc lines).disk.lookupKey k =
        some (.jobj fs) ∧ fs.lookupKey "id" = some (.jstr k)) ∧
    ((runArchive disk0 (some ex) inc lines).disk.size =
      disk0.size + lines.length) ∧
    (∀ k, (disk0.lookupKey k).isSome →
      (runArchive disk0 (some ex) inc lines).disk.lookupKey k =
        disk0.lookupKey k) ∧
    (∃ ffs, (runArchive disk0 (some ex) inc lines).indexWritten =
        some (.jobj ffs) ∧
      ((resItemsOf ffs).filterMap entryId).Nodup ∧
      (indexBackedB (resItemsOf (normFields ex)) disk0 = true →
        (∀ it ∈ resItemsOf (normFields inc), ∀ old, entryId it = some old →
          (∃ l ∈ lines, entryId l = some old) ∨ (disk0.lookupKey old).isSome) →
        ∀ e ∈ resItemsOf ffs, ∀ rid, entryId e = some rid →
          ((runArchive disk0 (some ex) inc lines).disk.lookupKey rid).isSome) ∧
      (resItemsOf (normFields inc) = [] →
        ∀ rid ∈ (processLines ⟨disk0, [], [], []⟩ lines).1.written,
          ∃ e ∈ resItemsOf ffs, entryId e = some rid)) := by
  have hplok : (processLines ⟨disk0, [], [], []⟩ lines).2 = none := by
    rw [← runArchive_err_eq disk0 (some ex) inc lines]
    exact hok
  obtain ⟨hinv, -⟩ := processLines_inv lines disk0 _ (runInv_init disk0)
  obtain ⟨H1, H2, H3, H4, H5, H6, H7, H8⟩ := hinv
  have hlen := processLines_written_length lines ⟨disk0, [], [], []⟩ hplok
  simp only [List.length_nil, Nat.zero_add] at hlen
  refine ⟨⟨H3, hlen⟩, ?_, ?_, ?_, ?_⟩
  · intro k hk
    refine ⟨H4 k hk, ?_⟩
    rw [runArchive_disk_eq]
    exact H5 k hk
  · rw [runArchive_disk_eq, H7, hlen]
  · intro k hk
    rw [runArchive_disk_eq]
    exact H1 k hk
  · obtain ⟨ffs, hffs, hres⟩ := runArchive_index_items disk0 ex inc lines hplok
    refine ⟨ffs, hffs, ?_, ?_, ?_⟩
    · rw [hres]
      exact mri_nodup_keys _ _
    · intro hback hdecl e he rid hrid
      rw [runArchive_disk_eq]
      rw [hres] at he
      have hsrc : e ∈ resItemsOf (normFields ex) ∨
          e ∈ (if (remapItems (processLines ⟨disk0, [], [], []⟩ lines).1.remap
                (resItemsOf (normFields inc))).isEmpty &&
              !(processLines ⟨disk0, [], [], []⟩ lines).1.written.isEmpty then
            (processLines ⟨disk0, [], [], []⟩ lines).1.written.map minimalEntry
          else
            remapItems (processLines ⟨disk0, [], [], []⟩ lines).1.remap
              (resItemsOf (normFields inc))) := by
        unfold merge_resolution_index_items at he
        rcases mri_mem_src _ _ _ he with h1 | h1
        · rcases mri_mem_src _ _ _ h1 with h2 | h2
          · simp at h2
          · exact Or.inl h2
        · exact Or.inr h1
      rcases hsrc with hsrc | hsrc
      · have hd0 := indexBackedB_spec _ _ hback e hsrc rid hrid
        rw [H1 rid hd0]
        exact hd0
      · split at hsrc
        · obtain ⟨r, hr, heq⟩ := List.mem_map.mp hsrc
          have : rid = r := by
            rw [← heq] at hrid
            rw [entryId_minimalEntry] at hrid
            simpa using hrid.symm
          subst this
          obtain ⟨fs, hf1, _⟩ := H5 rid hr
          simp [hf1]
        · rcases remapItems_id_cases _ _ e rid hsrc hrid with
            ⟨old, hmapo⟩ | ⟨it, hit, hidit, hnone⟩
          · have hmem := lookupStr_mem _ _ _ hmapo
            obtain ⟨hw, -⟩ := H8 _ hmem
            obtain ⟨fs, hf1, -⟩ := H5 _ hw
            simp [hf1]
          · rcases hdecl it hit rid hidit with ⟨l, hl, hlid⟩ | hd0
            · rcases processLines_declared lines _ hplok l hl rid hlid with
                hw | ⟨nw, hnw⟩
              · obtain ⟨fs, hf1, -⟩ := H5 _ hw
                simp [hf1]
              · rw [hnone] at hnw
                exact absurd hnw (by simp)
            · rw [H1 rid hd0]
              exact hd0
    · intro hempty rid hrw
      rw [hres]
      have hmt : remapItems (processLines ⟨disk0, [], [], []⟩ lines).1.remap
          (resItemsOf (normFields inc)) = [] := by
        rw [hempty]
        rfl
      rw [hmt]
      have hwne : (processLines ⟨disk0, [], [], []⟩ lines).1.written.isEmpty
          = false := by
        cases hcase : (processLines ⟨disk0, [], [], []⟩ lines).1.written with
        | nil => rw [hcase] at hrw; simp at hrw
        | cons a l => rfl
      rw [hwne]
      simp only [List.isEmpty_nil, Bool.true_and, Bool.not_false, if_true]
      exact mri_covers _ _ (minimalEntry rid) rid (entryId_minimalEntry rid)
        (Or.inr (List.mem_map_of_mem _ hrw))

/-- Witness for the amended claim C3: a fresh-id run against a store
already holding `res-001` — the store grows by exactly one record. -/
theorem id_consistency_amended_witness :
    (runArchive (.ocons "res-001" (.jobj (.ocons "id" (.jstr "res-001") .onil)) .onil)
      (some (.jobj .onil)) (.jobj .onil)
      [.jobj (.ocons "id" (.jstr "res-002") .onil)]).err = none ∧
    (runArchive (.ocons "res-001" (.jobj (.ocons "id" (.jstr "res-001") .onil)) .onil)
      (some (.jobj .onil)) (.jobj .onil)
      [.jobj (.ocons "id" (.jstr "res-002") .onil)]).disk.size =
      (JObj.ocons "res-001" (.jobj (.ocons "id" (.jstr "res-001") .onil)) .onil).size
        + [JVal.jobj (.ocons "id" (.jstr "res-002") .onil)].length :=
  ⟨by decide,
    (id_consistency_amended
      (.ocons "res-001" (.jobj (.ocons "id" (.jstr "res-001") .onil)) .onil)
      (.jobj .onil) (.jobj .onil)
      [.jobj (.ocons "id" (.jstr "res-002") .onil)] (by decide)).2.2.1⟩
